import Mathlib

/-!
Verification of the dependency-resolver core of this repository against its
specification.  Two components are modelled as shallow embeddings:

* `Resolver` — the resolution-graph assembler `ResolutionGraph::from_state`
  and the marker projector `ResolutionGraph::marker_tree`
  (crates/uv-resolver/src/resolution.rs);
* `Unnamed` — the name-resolution pre-pass `NamedRequirementsResolver`
  (crates/uv-requirements/src/unnamed.rs).

Machine integers do not occur in either component; versions, names and hash
digests are modelled by `Nat`/`String`.  Fallible Rust code (`Result`, `?`,
`panic!`-style `expect`/`unreachable` arms) is modelled with `Except`;
panics are given their own error constructors so that "returns Ok" is a
meaningful statement.  External collaborators that are not part of the two
source files (pubgrub ranges, the filesystem, filename parsers, the metadata
build) are passed in as explicit function-valued inputs.
-/

namespace Resolver

/-- Normalized package name (`uv_normalize::PackageName`). -/
abbrev PackageName := String

/-- PEP 440 version (`pep440_rs::Version`); modelled as a totally ordered scalar. -/
abbrev Version := Nat

/-- Normalized extra name (`uv_normalize::ExtraName`). -/
abbrev ExtraName := String

/-- A URL identifying an artifact; modelled as an opaque well-formed token. -/
abbrev Url := String

/-- A hash digest (`pypi_types::HashDigest`), modelled by its canonical form as a
totally ordered scalar. -/
abbrev HashDigest := Nat

/-- A pubgrub `Range<Version>`, modelled extensionally by its decidable
membership predicate; `contains` is the only operation `from_state` uses. -/
def VersionRange := Version → Bool

/-- Membership test of a version in a range (`Range::contains`). -/
def VersionRange.contains (r : VersionRange) (v : Version) : Bool := r v

/-- The solver's virtual package type (`PubGrubPackage`): the root, or a package
with an optional extra and an optional URL.  The source's remaining non-package
variants all fall into the same catch-all arms as `root` in the two passes. -/
inductive PubGrubPackage
  | root
  | package (name : PackageName) (extra : Option ExtraName) (url : Option Url)
deriving DecidableEq

/-- A local editable requirement (`distribution_types::LocalEditable`); only its
URL identity is relevant to the graph assembler. -/
structure LocalEditable where
  url : Url
deriving DecidableEq

/-- A resolved, pinned distribution (`distribution_types::ResolvedDist`),
restricted to the three shapes `from_state` constructs: a registry pin, a
direct-URL distribution (`Dist::from_url`), or an editable
(`Dist::from_editable`).  The Rust constructors are fallible only on malformed
URLs, which the opaque `Url` model excludes, so they are total here. -/
inductive Dist
  | registry (name : PackageName) (version : Version)
  | url (name : PackageName) (url : Url)
  | editable (name : PackageName) (editable : LocalEditable)
deriving DecidableEq

/-- Name of a resolved distribution. -/
def Dist.name : Dist → PackageName
  | .registry n _ => n
  | .url n _ => n
  | .editable n _ => n

/-- Pinned version of a resolved distribution, when it has one. -/
def Dist.version : Dist → Option Version
  | .registry _ v => some v
  | .url _ _ => none
  | .editable _ _ => none

/-- A stable key for metadata lookup (`distribution_types::VersionId`). -/
inductive VersionId
  | registry (name : PackageName) (version : Version)
  | url (url : Url)
deriving DecidableEq

/-- The `VersionId` of a resolved distribution, following
`dist.version_or_url()`: registry pins key by `(name, version)`, URL and
editable distributions key by their URL. -/
def Dist.version_id : Dist → VersionId
  | .registry n v => .registry n v
  | .url _ u => .url u
  | .editable _ e => .url e.url

/-- Marker parameter identifiers of version type (`MarkerValueVersion`). -/
abbrev VersionParam := String

/-- Marker parameter identifiers of string type (`MarkerValueString`). -/
abbrev StringParam := String

/-- A pep508 marker operand (`MarkerValue`): an environment-backed version
parameter, an environment-backed string parameter, the `extra` reference, or a
quoted string literal. -/
inductive MarkerValue
  | envVersion (p : VersionParam)
  | envString (p : StringParam)
  | extra
  | quoted (s : String)
deriving DecidableEq

/-- A pep508 marker operator.  `from_state`'s projection only emits `equal`;
all other operators are collapsed into `other`. -/
inductive MarkerOperator
  | equal
  | other
deriving DecidableEq

/-- A single marker comparison (`MarkerExpression`). -/
structure MarkerExpression where
  l_value : MarkerValue
  operator : MarkerOperator
  r_value : MarkerValue
deriving DecidableEq

/-- A pep508 marker tree (`MarkerTree`): an expression, a conjunction, or a
disjunction. -/
inductive MarkerTree
  | expression (e : MarkerExpression)
  | and (l : List MarkerTree)
  | or (l : List MarkerTree)

/-- A marker parameter observed in a marker expression (the local `MarkerParam`
enum of `ResolutionGraph::marker_tree`). -/
inductive MarkerParam
  | version (p : VersionParam)
  | string (p : StringParam)
deriving DecidableEq

/-- The live marker environment (`pep508_rs::MarkerEnvironment`), exposing the
canonical string rendering of each parameter (the source calls `to_string()` on
the looked-up value before quoting it). -/
structure MarkerEnvironment where
  get_version : VersionParam → String
  get_string : StringParam → String

/-- Value of a marker operand under an environment.  Modelled from the spec:
pep508 evaluation substitutes environment-backed parameters by their value in
the current environment; quoted strings denote themselves. -/
def MarkerValue.eval (env : MarkerEnvironment) : MarkerValue → String
  | .envVersion p => env.get_version p
  | .envString p => env.get_string p
  | .extra => ""
  | .quoted s => s

/-- Evaluation of a single marker comparison.  Modelled from the spec: an
equality comparison holds when both operands evaluate to the same value; the
collapsed non-equality operators are irrelevant to the projection and evaluate
to `false`. -/
def MarkerExpression.eval (env : MarkerEnvironment) (e : MarkerExpression) : Bool :=
  match e.operator with
  | .equal => MarkerValue.eval env e.l_value == MarkerValue.eval env e.r_value
  | .other => false

mutual

/-- Evaluation of a marker tree under an environment.  Modelled from the spec:
a conjunction holds when all conjuncts hold (so the empty conjunction is
trivially true), a disjunction when some disjunct holds. -/
def MarkerTree.eval (env : MarkerEnvironment) : MarkerTree → Bool
  | .expression e => e.eval env
  | .and l => MarkerTree.evalAll env l
  | .or l => MarkerTree.evalAny env l

/-- Conjunction of the evaluations of a list of marker trees. -/
def MarkerTree.evalAll (env : MarkerEnvironment) : List MarkerTree → Bool
  | [] => true
  | t :: ts => MarkerTree.eval env t && MarkerTree.evalAll env ts

/-- Disjunction of the evaluations of a list of marker trees. -/
def MarkerTree.evalAny (env : MarkerEnvironment) : List MarkerTree → Bool
  | [] => false
  | t :: ts => MarkerTree.eval env t || MarkerTree.evalAny env ts

end

/-- Insert a marker parameter into the seen-set unless already present.  The
source uses an `FxHashSet`; the model uses an insertion-ordered duplicate-free
list, which realises the same set semantics deterministically. -/
def insertParam (p : MarkerParam) (set : List MarkerParam) : List MarkerParam :=
  if p ∈ set then set else set ++ [p]

/-- Record a marker operand in the seen-set if it is an environment-backed
parameter (`add_marker_value` in `marker_tree`): quoted strings and `extra`
references are not collected. -/
def add_marker_value (value : MarkerValue) (set : List MarkerParam) : List MarkerParam :=
  match value with
  | .envVersion p => insertParam (.version p) set
  | .envString p => insertParam (.string p) set
  | .extra => set
  | .quoted _ => set

mutual

/-- Collect all environment-backed marker parameters of a marker tree into the
seen-set (`add_marker_params_from_tree` in `marker_tree`): an expression
contributes its left then its right operand, `And`/`Or` recurse into their
children. -/
def add_marker_params_from_tree : MarkerTree → List MarkerParam → List MarkerParam
  | .expression e, set => add_marker_value e.r_value (add_marker_value e.l_value set)
  | .and l, set => addParamsList l set
  | .or l, set => addParamsList l set

/-- Collect the parameters of a list of marker trees, left to right. -/
def addParamsList : List MarkerTree → List MarkerParam → List MarkerParam
  | [], set => set
  | t :: ts, set => addParamsList ts (add_marker_params_from_tree t set)

end

/-- A requirement as the resolver sees it (`distribution_types::Requirement`);
the graph assembler and marker projector only inspect its marker tree. -/
structure Requirement where
  name : PackageName
  marker : Option MarkerTree

/-- Distribution metadata (`pypi_types::Metadata23` as consumed here): the
declared name, the declared extras, and the requires-dist list. -/
structure Metadata where
  name : PackageName
  provides_extras : List ExtraName
  requires_dist : List Requirement

/-- A metadata archive (`MetadataResponse::Found` payload): parsed metadata
plus the hashes of the archive it was extracted from. -/
structure Archive where
  metadata : Metadata
  hashes : List HashDigest

/-- A provider metadata response (`uv_resolver::MetadataResponse`); every
non-`Found` variant is collapsed into `miss`, since the source treats them all
alike (skip, or panic where metadata is required). -/
inductive MetadataResponse
  | found (archive : Archive)
  | miss

/-- One version map of a registry response; the assembler only reads the hash
list it publishes for a version. -/
structure VersionMap where
  hashes : Version → Option (List HashDigest)

/-- A provider versions response (`uv_resolver::VersionsResponse`); non-`Found`
variants are collapsed into `miss`. -/
inductive VersionsResponse
  | found (version_maps : List VersionMap)
  | miss

/-- The kind of a solver incompatibility (`pubgrub::Kind`), restricted to the
only constructor the edge pass matches: `FromDependencyOf(p1, r1, p2, r2)`,
meaning `p1 ∈ r1` depends on `p2 ∈ r2`.  All other kinds are `other`. -/
inductive IncompatKind
  | fromDependencyOf (p1 : PubGrubPackage) (r1 : VersionRange)
      (p2 : PubGrubPackage) (r2 : VersionRange)
  | other

/-- A solver incompatibility; the edge pass only reads its kind. -/
structure Incompatibility where
  kind : IncompatKind

/-- A graph-construction diagnostic (`Diagnostic`). -/
inductive Diagnostic
  | missingExtra (dist : Dist) (extra : ExtraName)
deriving DecidableEq

/-- A directed edge of the resolution graph, with its source and target node
indices and the dependency range it is labelled with. -/
structure Edge where
  source : Nat
  target : Nat
  range : VersionRange

/-- The petgraph graph underlying a `ResolutionGraph`: an arena of nodes
(indices are positions) and a list of labelled edges. -/
structure Graph where
  nodes : List Dist
  edges : List Edge

/-- Append a node, returning the new graph and the node's index
(`petgraph::Graph::add_node`). -/
def Graph.addNode (g : Graph) (d : Dist) : Graph × Nat :=
  ({ g with nodes := g.nodes ++ [d] }, g.nodes.length)

/-- Update the weight of the edge `a → b` if one exists, else add the edge
(`petgraph::Graph::update_edge`). -/
def updateEdgeList : List Edge → Nat → Nat → VersionRange → List Edge
  | [], a, b, r => [⟨a, b, r⟩]
  | e :: es, a, b, r =>
    if e.source = a ∧ e.target = b then ⟨a, b, r⟩ :: es
    else e :: updateEdgeList es a b r

/-- Graph-level `update_edge`. -/
def Graph.updateEdge (g : Graph) (a b : Nat) (r : VersionRange) : Graph :=
  { g with edges := updateEdgeList g.edges a b r }

/-- Range of the edge `a → b` in an edge list, if present. -/
def lookupEdge (es : List Edge) (a b : Nat) : Option VersionRange :=
  (es.find? (fun e => decide (e.source = a ∧ e.target = b))).map (·.range)

/-- Lookup in an association list (hash-map read). -/
def lookupA {β : Type} (m : List (PackageName × β)) (k : PackageName) : Option β :=
  (m.find? (fun e => e.1 == k)).map (·.2)

/-- Insert-or-replace in an association list (hash-map write); keeps keys
duplicate-free. -/
def upsertA {β : Type} : List (PackageName × β) → PackageName → β → List (PackageName × β)
  | [], k, v => [(k, v)]
  | e :: es, k, v => if e.1 = k then (k, v) :: es else e :: upsertA es k v

/-- Append an extra to a package's extras list, creating the entry if needed
(`extras.entry(name).or_insert_with(Vec::new).push(extra)`). -/
def pushExtra (m : List (PackageName × List ExtraName)) (k : PackageName) (x : ExtraName) :
    List (PackageName × List ExtraName) :=
  upsertA m k (((lookupA m k).getD []) ++ [x])

/-- The hash list published for a version by the first version map that has
one (the `for version_map in version_maps { ... break }` loop). -/
def firstMapHashes : List VersionMap → Version → Option (List HashDigest)
  | [], _ => none
  | m :: ms, v =>
    match m.hashes v with
    | some ds => some ds
    | none => firstMapHashes ms v

/-- The sort applied to published hashes (`digests.sort_unstable()`): digests
carry a total order on their canonical form, under which any correct sort is
deterministic. -/
def sortHashes (ds : List HashDigest) : List HashDigest :=
  List.insertionSort (· ≤ ·) ds

/-- Errors out of the graph assembler.  `panic`-prefixed constructors model the
source's `expect`/`panic!` sites, which are distinct from the `ResolveError`
values threaded through `?`. -/
inductive ResolveError
  | panicUnpinned (name : PackageName)
  | panicMissingMetadata (id : VersionId)
  | panicMissingNode (name : PackageName)

/-- The inputs of `ResolutionGraph::from_state`: the solver's selection, the
pins table, the two provider caches, the incompatibility store (indexed per
package, as `state.incompatibilities` is), the preferences, the editables
overlay, and the URL-precision redirect helpers. -/
structure FromStateInputs where
  selection : List (PubGrubPackage × Version)
  pins : PackageName → Version → Option Dist
  packages : PackageName → Option VersionsResponse
  distributions : VersionId → Option MetadataResponse
  incompatibilities : PubGrubPackage → List Incompatibility
  preferences_match_hashes : PackageName → Version → Option (List HashDigest)
  editables : PackageName → Option (LocalEditable × Metadata)
  to_precise : Url → Option Url
  apply_redirect : Url → Url → Url

/-- `Dist::from_editable` (fallible in Rust only on malformed URLs, which the
model excludes). -/
def Dist.from_editable (name : PackageName) (e : LocalEditable) : Dist :=
  .editable name e

/-- `Dist::from_url` (fallible in Rust only on malformed URLs, which the model
excludes). -/
def Dist.from_url (name : PackageName) (u : Url) : Dist :=
  .url name u

/-- The precise URL substitution applied to URL distributions:
`to_precise(url).map_or_else(|| url.clone(), |precise| apply_redirect(url, precise))`. -/
def preciseUrl (inp : FromStateInputs) (u : Url) : Url :=
  match inp.to_precise u with
  | some precise => inp.apply_redirect u precise
  | none => u

/-- Mutable state threaded through the node pass of `from_state`: the graph
under construction, the hashes and extras side tables, the diagnostics, and the
`inverse` map from package name to node index. -/
structure NodeState where
  petgraph : Graph
  hashes : List (PackageName × List HashDigest)
  extras : List (PackageName × List ExtraName)
  diagnostics : List Diagnostic
  inverse : List (PackageName × Nat)

/-- The initial (empty) node-pass state. -/
def initState : NodeState :=
  ⟨⟨[], []⟩, [], [], [], []⟩

/-- One iteration of the node pass of `ResolutionGraph::from_state`: the match
on the selection's virtual package.  Registry and URL base packages add a
pinned node (editables overriding both) and attach hashes, preferring a
non-empty preference match and falling back to published hashes; extra packages
add no node and either record the extra or emit a `MissingExtra` diagnostic;
all other packages are skipped. -/
def processNode (inp : FromStateInputs) (st : NodeState)
    (package : PubGrubPackage) (version : Version) : Except ResolveError NodeState :=
  match package with
  | .package package_name none none =>
    let pinnedE : Except ResolveError Dist :=
      match inp.editables package_name with
      | some (editable, _) => .ok (Dist.from_editable package_name editable)
      | none =>
        match inp.pins package_name version with
        | some d => .ok d
        | none => .error (.panicUnpinned package_name)
    match pinnedE with
    | .error e => .error e
    | .ok pinned_package =>
      let hashes :=
        match (inp.preferences_match_hashes package_name version).filter
            (fun digests => !digests.isEmpty) with
        | some digests => upsertA st.hashes package_name digests
        | none =>
          match inp.packages package_name with
          | some (VersionsResponse.found version_maps) =>
            match firstMapHashes version_maps version with
            | some digests => upsertA st.hashes package_name (sortHashes digests)
            | none => st.hashes
          | _ => st.hashes
      let (g, index) := st.petgraph.addNode pinned_package
      .ok { st with petgraph := g, hashes := hashes,
                    inverse := upsertA st.inverse package_name index }
  | .package package_name none (some url) =>
    let pinned_package :=
      match inp.editables package_name with
      | some (editable, _) => Dist.from_editable package_name editable
      | none => Dist.from_url package_name (preciseUrl inp url)
    let hashes :=
      match (inp.preferences_match_hashes package_name version).filter
          (fun digests => !digests.isEmpty) with
      | some digests => upsertA st.hashes package_name digests
      | none =>
        match inp.distributions pinned_package.version_id with
        | some (MetadataResponse.found archive) =>
          upsertA st.hashes package_name (sortHashes archive.hashes)
        | _ => st.hashes
    let (g, index) := st.petgraph.addNode pinned_package
    .ok { st with petgraph := g, hashes := hashes,
                  inverse := upsertA st.inverse package_name index }
  | .package package_name (some extra) none =>
    match inp.editables package_name with
    | some (editable, metadata) =>
      if extra ∈ metadata.provides_extras then
        .ok { st with extras := pushExtra st.extras package_name extra }
      else
        .ok { st with diagnostics := st.diagnostics ++
          [.missingExtra (Dist.from_editable package_name editable) extra] }
    | none =>
      match inp.distributions (VersionId.registry package_name version) with
      | some (MetadataResponse.found archive) =>
        if extra ∈ archive.metadata.provides_extras then
          .ok { st with extras := pushExtra st.extras package_name extra }
        else
          match inp.pins package_name version with
          | some pinned_package =>
            .ok { st with diagnostics := st.diagnostics ++
              [.missingExtra pinned_package extra] }
          | none => .error (.panicUnpinned package_name)
      | _ => .error (.panicMissingMetadata (VersionId.registry package_name version))
  | .package package_name (some extra) (some url) =>
    match inp.editables package_name with
    | some (editable, metadata) =>
      if extra ∈ metadata.provides_extras then
        .ok { st with extras := pushExtra st.extras package_name extra }
      else
        .ok { st with diagnostics := st.diagnostics ++
          [.missingExtra (Dist.from_editable package_name editable) extra] }
    | none =>
      match inp.distributions (VersionId.url url) with
      | some (MetadataResponse.found archive) =>
        if extra ∈ archive.metadata.provides_extras then
          .ok { st with extras := pushExtra st.extras package_name extra }
        else
          .ok { st with diagnostics := st.diagnostics ++
            [.missingExtra (Dist.from_url package_name (preciseUrl inp url)) extra] }
      | _ => .error (.panicMissingMetadata (VersionId.url url))
  | .root => .ok st

/-- The node pass: fold `processNode` over the selection. -/
def nodePass (inp : FromStateInputs) :
    List (PubGrubPackage × Version) → NodeState → Except ResolveError NodeState
  | [], st => .ok st
  | (p, v) :: rest, st =>
    match processNode inp st p v with
    | .error e => .error e
    | .ok st' => nodePass inp rest st'

/-- One iteration of the edge pass of `ResolutionGraph::from_state` against a
single incompatibility: skip non-dependency kinds, skip inverted entries
(`package != self_package`), skip entries whose endpoints are not both
packages, skip extra-group self-edges (same base name), and otherwise add or
update the edge `self → dependency` when the selected version of the iterated
package lies in the incompatibility's self range. -/
def processIncompat (inverse : List (PackageName × Nat))
    (package : PubGrubPackage) (version : Version) (g : Graph)
    (inc : Incompatibility) : Except ResolveError Graph :=
  match inc.kind with
  | .fromDependencyOf self_package self_version dependency_package dependency_range =>
    if package ≠ self_package then .ok g
    else
      match self_package, dependency_package with
      | .package self_name _ _, .package dependency_name _ _ =>
        if self_name = dependency_name then .ok g
        else if self_version.contains version then
          match lookupA inverse self_name, lookupA inverse dependency_name with
          | some self_index, some dependency_index =>
            .ok (g.updateEdge self_index dependency_index dependency_range)
          | none, _ => .error (.panicMissingNode self_name)
          | _, none => .error (.panicMissingNode dependency_name)
        else .ok g
      | _, _ => .ok g
  | .other => .ok g

/-- Process all incompatibilities recorded for one selection entry. -/
def processIncompats (inverse : List (PackageName × Nat))
    (package : PubGrubPackage) (version : Version) :
    List Incompatibility → Graph → Except ResolveError Graph
  | [], g => .ok g
  | inc :: incs, g =>
    match processIncompat inverse package version g inc with
    | .error e => .error e
    | .ok g' => processIncompats inverse package version incs g'

/-- The edge pass: for every selection entry, walk its incompatibilities. -/
def edgePass (inp : FromStateInputs) (inverse : List (PackageName × Nat)) :
    List (PubGrubPackage × Version) → Graph → Except ResolveError Graph
  | [], g => .ok g
  | (p, v) :: rest, g =>
    match processIncompats inverse p v (inp.incompatibilities p) g with
    | .error e => .error e
    | .ok g' => edgePass inp inverse rest g'

/-- A complete resolution graph (`ResolutionGraph`). -/
structure ResolutionGraph where
  petgraph : Graph
  hashes : List (PackageName × List HashDigest)
  extras : List (PackageName × List ExtraName)
  editables : PackageName → Option (LocalEditable × Metadata)
  diagnostics : List Diagnostic

/-- `ResolutionGraph::from_state`: the node pass over the selection followed by
the edge pass over the incompatibility store. -/
def from_state (inp : FromStateInputs) : Except ResolveError ResolutionGraph :=
  match nodePass inp inp.selection initState with
  | .error e => .error e
  | .ok st =>
    match edgePass inp st.inverse inp.selection st.petgraph with
    | .error e => .error e
    | .ok g => .ok ⟨g, st.hashes, st.extras, inp.editables, st.diagnostics⟩

/-- An editable entry of the manifest as `marker_tree` reads it: the editable,
its metadata, and its declared uv dependencies. -/
structure ManifestEditable where
  editable : LocalEditable
  metadata : Metadata
  dependencies : List Requirement

/-- The manifest as `marker_tree` reads it.  `apply` is `Manifest::apply`
(application of the override/constraint tables), which lives outside the
sources under verification and is therefore carried as an opaque function. -/
structure Manifest where
  requirements : List Requirement
  editables : List ManifestEditable
  apply : List Requirement → List Requirement

/-- Collect the marker parameters of one requirement into the seen-set. -/
def collectReq (set : List MarkerParam) (req : Requirement) : List MarkerParam :=
  match req.marker with
  | some t => add_marker_params_from_tree t set
  | none => set

/-- Collect the marker parameters contributed by one graph node: look up its
metadata (panicking, as the source does, when it is absent), apply the manifest
tables to its requires-dist and fold over the resulting markers. -/
def collectNode (manifest : Manifest) (distributions : VersionId → Option MetadataResponse)
    (set : List MarkerParam) (dist : Dist) : Except ResolveError (List MarkerParam) :=
  match distributions dist.version_id with
  | some (MetadataResponse.found archive) =>
    .ok ((manifest.apply archive.metadata.requires_dist).foldl collectReq set)
  | _ => .error (.panicMissingMetadata dist.version_id)

/-- Collect the marker parameters of all graph nodes. -/
def collectNodes (manifest : Manifest) (distributions : VersionId → Option MetadataResponse) :
    List Dist → List MarkerParam → Except ResolveError (List MarkerParam)
  | [], set => .ok set
  | d :: ds, set =>
    match collectNode manifest distributions set d with
    | .error e => .error e
    | .ok set' => collectNodes manifest distributions ds set'

/-- The equality conjunct emitted for one observed parameter: the parameter
pinned to its (quoted, canonically rendered) value in the given environment. -/
def pinExpr (env : MarkerEnvironment) : MarkerParam → MarkerExpression
  | .version p => ⟨.envVersion p, .equal, .quoted (env.get_version p)⟩
  | .string p => ⟨.envString p, .equal, .quoted (env.get_string p)⟩

/-- The direct requirements whose markers are considered: the manifest's
requirements chained with every editable's declared dependencies. -/
def directReqs (manifest : Manifest) : List Requirement :=
  manifest.requirements ++ manifest.editables.flatMap (fun e => e.dependencies)

/-- `ResolutionGraph::marker_tree`: collect every environment-backed marker
parameter appearing in the requires-dist of a selected node or in a direct or
editable-declared requirement (both after `Manifest::apply`), then emit the
conjunction pinning each collected parameter to its current value. -/
def marker_tree (G : ResolutionGraph) (manifest : Manifest)
    (distributions : VersionId → Option MetadataResponse) (env : MarkerEnvironment) :
    Except ResolveError MarkerTree :=
  match collectNodes manifest distributions G.petgraph.nodes [] with
  | .error e => .error e
  | .ok seen =>
    let seen2 := (manifest.apply (directReqs manifest)).foldl collectReq seen
    .ok (.and (seen2.map (fun p => .expression (pinExpr env p))))

/-- The metadata key the extra-validation case of the node pass looks up
(`PubGrubDistribution::from_registry` / `::from_url` followed by
`version_id()`). -/
def extraVersionId (n : PackageName) (v : Version) : Option Url → VersionId
  | none => .registry n v
  | some url => .url url

/-- The metadata against which an extra of package `n` is validated: the
editable overlay's metadata when the package is editable, else the found
metadata archive of the given version id.  Used only to state theorems. -/
def effectiveMetadata (inp : FromStateInputs) (n : PackageName) (vid : VersionId) :
    Option Metadata :=
  match inp.editables n with
  | some (_, md) => some md
  | none =>
    match inp.distributions vid with
    | some (MetadataResponse.found archive) => some archive.metadata
    | _ => none

/-- The marker parameter carried by a marker operand, if any.  Used only to
state theorems. -/
def valueParam : MarkerValue → Option MarkerParam
  | .envVersion p => some (.version p)
  | .envString p => some (.string p)
  | .extra => none
  | .quoted _ => none

mutual

/-- A marker parameter occurs (as an environment-backed operand) somewhere in
a marker tree.  Used only to state theorems. -/
def TreeHasParam (q : MarkerParam) : MarkerTree → Prop
  | .expression e => valueParam e.l_value = some q ∨ valueParam e.r_value = some q
  | .and l => ListHasParam q l
  | .or l => ListHasParam q l

/-- A marker parameter occurs in some tree of a list. -/
def ListHasParam (q : MarkerParam) : List MarkerTree → Prop
  | [] => False
  | t :: ts => TreeHasParam q t ∨ ListHasParam q ts

end

/-- A marker parameter is observed by `marker_tree`'s collection: it occurs in
a marker of the (manifest-applied) requires-dist of a graph node's metadata,
or in a marker of a (manifest-applied) direct or editable-declared
requirement.  Used only to state theorems. -/
def ObservedParam (G : ResolutionGraph) (manifest : Manifest)
    (distributions : VersionId → Option MetadataResponse) (q : MarkerParam) : Prop :=
  (∃ d ∈ G.petgraph.nodes, ∃ archive,
      distributions d.version_id = some (MetadataResponse.found archive) ∧
      ∃ req ∈ manifest.apply archive.metadata.requires_dist, ∃ t,
        req.marker = some t ∧ TreeHasParam q t) ∨
  (∃ req ∈ manifest.apply (directReqs manifest), ∃ t,
      req.marker = some t ∧ TreeHasParam q t)

/-- Invariant 1 of the spec's Selection data model, as the edge pass consumes
it: for every dependency incompatibility `A ∈ r ⇒ B ∈ R` recorded for a
selected package `A` whose selected version lies in `r` (the constraint is
active), every selected version of `B`'s base name lies in `R`. -/
def SelectionInvariant (inp : FromStateInputs) : Prop :=
  ∀ A v, (A, v) ∈ inp.selection → ∀ inc ∈ inp.incompatibilities A,
    ∀ r dp dr, inc.kind = .fromDependencyOf A r dp dr →
      r.contains v = true →
      ∀ dn de du, dp = .package dn de du →
        ∀ qv qe qu, (PubGrubPackage.package dn qe qu, qv) ∈ inp.selection →
          dr.contains qv = true

/-- The pins table maps `(name, version)` to a distribution pinned at that
version (the spec's pin coverage). -/
def PinsVersioned (inp : FromStateInputs) : Prop :=
  ∀ n v d, inp.pins n v = some d → ∀ w, d.version = some w → w = v

/-- Node-pass invariant: every `inverse` binding points at a node of the graph
that was created for a selected base package of that name and, when the node
carries a pinned version, that version is the selected one. -/
def InverseOk (inp : FromStateInputs) (st : NodeState) : Prop :=
  ∀ n i, (n, i) ∈ st.inverse →
    ∃ d, st.petgraph.nodes[i]? = some d ∧
      ∃ u w, (PubGrubPackage.package n none u, w) ∈ inp.selection ∧
        ∀ w', d.version = some w' → w' = w

/-- Provenance of an edge out of the edge pass: it was written for an active
dependency incompatibility of a selected package, its target is the inverse
binding of the dependency's base name, and its range is the dependency
range. -/
def EdgeProv (inp : FromStateInputs) (inverse : List (PackageName × Nat)) (e : Edge) : Prop :=
  ∃ p v, (p, v) ∈ inp.selection ∧ ∃ inc ∈ inp.incompatibilities p,
    ∃ r dr sn se su dn de du,
      inc.kind = .fromDependencyOf (.package sn se su) r (.package dn de du) dr ∧
      p = .package sn se su ∧ r.contains v = true ∧
      lookupA inverse dn = some e.target ∧ e.range = dr

/-- A sample self range, used as concrete input in witnesses. -/
def sampleSelfRange : VersionRange := fun w => decide (w = 1)

/-- A sample dependency range, used as concrete input in witnesses. -/
def sampleDepRange : VersionRange := fun w => decide (w ≤ 5)

/-- A sample dependency incompatibility (`a ∈ {1}` depends on `b ∈ [0,5]`),
used as concrete input in witnesses. -/
def sampleInc : Incompatibility :=
  ⟨.fromDependencyOf (.package "a" none none) sampleSelfRange
    (.package "b" none none) sampleDepRange⟩

/-- A sample inverse map, used as concrete input in witnesses. -/
def sampleInverse : List (PackageName × Nat) := [("a", 0), ("b", 1)]

/-- Sample `from_state` inputs: two selected registry packages and one
dependency incompatibility, used as concrete input in witnesses. -/
def sampleInputs : FromStateInputs :=
  { selection := [(.package "a" none none, 1), (.package "b" none none, 2)],
    pins := fun n v => some (.registry n v),
    packages := fun _ => none,
    distributions := fun _ => none,
    incompatibilities := fun p => if p = .package "a" none none then [sampleInc] else [],
    preferences_match_hashes := fun _ _ => none,
    editables := fun _ => none,
    to_precise := fun _ => none,
    apply_redirect := fun u _ => u }

/-- The resolution graph `from_state` assembles from `sampleInputs`. -/
def sampleGraph : ResolutionGraph :=
  { petgraph := { nodes := [.registry "a" 1, .registry "b" 2],
                  edges := [⟨0, 1, sampleDepRange⟩] },
    hashes := [], extras := [], editables := sampleInputs.editables, diagnostics := [] }

/-- Sample inputs with a hash preference for package `a`, used as concrete
input in witnesses. -/
def sampleHashInputs : FromStateInputs :=
  { sampleInputs with
    preferences_match_hashes := fun n v => if n = "a" ∧ v = 1 then some [2, 1] else none }

/-- The node-pass state after processing package `a` under
`sampleHashInputs`. -/
def sampleHashState : NodeState :=
  { petgraph := { nodes := [.registry "a" 1], edges := [] },
    hashes := [("a", [2, 1])], extras := [], diagnostics := [], inverse := [("a", 0)] }

/-- Sample inputs whose metadata for `a` declares the extra `cli`, used as
concrete input in witnesses. -/
def sampleExtraInputs : FromStateInputs :=
  { sampleInputs with
    distributions := fun vid =>
      if vid = .registry "a" 1 then some (.found ⟨⟨"a", ["cli"], []⟩, []⟩) else none }

/-- A sample one-node graph for the marker projector, used as concrete input
in witnesses. -/
def sampleMarkerGraph : ResolutionGraph :=
  { petgraph := { nodes := [.registry "a" 1], edges := [] },
    hashes := [], extras := [], editables := fun _ => none, diagnostics := [] }

/-- A sample manifest with one marker-gated direct requirement, used as
concrete input in witnesses. -/
def sampleMarkerManifest : Manifest :=
  { requirements := [⟨"x", some (.expression ⟨.envString "os_name", .equal, .quoted "posix"⟩)⟩],
    editables := [],
    apply := fun l => l }

/-- A sample metadata index for the marker projector, used as concrete input
in witnesses. -/
def sampleMarkerDists : VersionId → Option MetadataResponse :=
  fun _ => some (.found ⟨⟨"a", [], []⟩, []⟩)

/-- A sample marker environment, used as concrete input in witnesses. -/
def sampleMarkerEnv : MarkerEnvironment := ⟨fun _ => "3.9", fun _ => "posix"⟩

end Resolver

deriving instance DecidableEq for Except

namespace Unnamed

/-- Normalized package name (`uv_normalize::PackageName`). -/
abbrev PackageName := String

/-- Normalized extra name (`uv_normalize::ExtraName`). -/
abbrev ExtraName := String

/-- A filesystem path (the `PathBuf` obtained from a file URL). -/
abbrev FsPath := String

/-- A hash-verification policy token (`HashStrategy::get_url` result); opaque
to name resolution. -/
abbrev HashPolicy := Nat

/-- A verbatim URL as the name inferer consumes it: its scheme, its path, the
result of `RemoteSource::filename()` (which can fail with a message), and the
result of `to_file_path()` (absent when the URL is not a file path, where the
source `expect`s). -/
structure VerbatimUrl where
  scheme : String
  path : String
  filename : Except String String
  to_file_path : Option FsPath
deriving DecidableEq

/-- Parsed wheel filename (`distribution_filename::WheelFilename`); only the
name field is consumed. -/
structure WheelFilename where
  name : PackageName
deriving DecidableEq

/-- Parsed source-distribution filename
(`distribution_filename::SourceDistFilename`); only the name field is
consumed. -/
structure SourceDistFilename where
  name : PackageName
deriving DecidableEq

/-- Distribution metadata as the name inferer consumes it; only the name is
read. -/
structure UMetadata where
  name : PackageName
deriving DecidableEq

/-- A built metadata archive. -/
structure UArchive where
  metadata : UMetadata
deriving DecidableEq

/-- An in-memory-index metadata response; non-`Found` variants are collapsed
into `miss`, since the source falls through to the build for all of them. -/
inductive UMetadataResponse
  | found (archive : UArchive)
  | miss
deriving DecidableEq

/-- URL schemes distinguished by `resolve_requirement`.  Modelled from the
spec: `pep508_rs::Scheme::parse` recognizes these five schemes (among others);
every other scheme — recognized or not — reaches the same unsupported-scheme
arm, so the model collapses all of them into a `none` parse. -/
inductive Scheme
  | file
  | http
  | https
  | gitSsh
  | gitHttps
deriving DecidableEq

/-- Modelled from the spec: classification of a scheme string by
`pep508_rs::Scheme::parse`, restricted to the five schemes the source
distinguishes. -/
def Scheme.parse (s : String) : Option Scheme :=
  if s = "file" then some .file
  else if s = "http" then some .http
  else if s = "https" then some .https
  else if s = "git+ssh" then some .gitSsh
  else if s = "git+https" then some .gitHttps
  else none

/-- A buildable source URL (`distribution_types::SourceUrl`): a local
directory, a local file, a direct archive URL, or a git URL. -/
inductive SourceUrl
  | directory (url : VerbatimUrl) (path : FsPath)
  | path (url : VerbatimUrl) (path : FsPath)
  | direct (url : VerbatimUrl)
  | git (url : VerbatimUrl)
deriving DecidableEq

/-- The URL of a buildable source (`SourceUrl::url`). -/
def SourceUrl.url : SourceUrl → VerbatimUrl
  | .directory u _ => u
  | .path u _ => u
  | .direct u => u
  | .git u => u

/-- A buildable source (`distribution_types::BuildableSource`); the name
inferer only constructs the URL variant. -/
inductive BuildableSource
  | url (source : SourceUrl)
deriving DecidableEq

/-- The `project` table of a pyproject.toml (PEP 621); `name` is mandatory
when the table is present (the source's `Project` struct). -/
structure Project where
  name : PackageName
deriving DecidableEq

/-- The `tool.poetry` table of a pyproject.toml; its `name` is optional. -/
structure ToolPoetry where
  name : Option PackageName
deriving DecidableEq

/-- The `tool` table of a pyproject.toml. -/
structure Tool where
  poetry : Option ToolPoetry
deriving DecidableEq

/-- A parsed pyproject.toml as the source deserializes it. -/
structure PyProjectToml where
  project : Option Project
  tool : Option Tool
deriving DecidableEq

/-- An unnamed URL-only requirement (`pep508_rs::UnnamedRequirement`); the
marker tree and origin are opaque to name inference and modelled by tokens. -/
structure UnnamedRequirement where
  url : VerbatimUrl
  extras : List ExtraName
  marker : Option Nat
  origin : Option Nat
deriving DecidableEq

/-- The constraint of a named requirement (`pep508_rs::VersionOrUrl`). -/
inductive VersionOrUrl
  | version (specifiers : String)
  | url (u : VerbatimUrl)
deriving DecidableEq

/-- A named requirement (`pep508_rs::Requirement`; the
`distribution_types::Requirement` produced by the lossless `from_pep508`
conversion is identified with it). -/
structure Requirement where
  name : PackageName
  extras : List ExtraName
  version_or_url : Option VersionOrUrl
  marker : Option Nat
  origin : Option Nat
deriving DecidableEq

/-- An input specification entry
(`distribution_types::UnresolvedRequirement`). -/
inductive UnresolvedRequirement
  | named (r : Requirement)
  | unnamed (r : UnnamedRequirement)
deriving DecidableEq

/-- Errors out of the name inferer.  `anyhow` collapses error types in the
source; the model keeps one constructor per distinct failure site so that
propagation is observable. -/
inductive UError
  | filenameError (msg : String)
  | wheelParseError (msg : String)
  | unsupportedScheme (url : VerbatimUrl)
  | buildFailure (msg : String)
  | panicNotFilePath (url : VerbatimUrl)
deriving DecidableEq

/-- The collaborators of the name inferer, carried as explicit functions:
the two filename parsers (`distribution_filename`), the filesystem reads of
the local-directory recognizers (each combined with its parse, mirroring the
`.ok()?` chains of the source), the hash policy, the in-memory index read,
and the on-demand metadata build.  All of these live outside the sources
under verification. -/
structure NameEnv where
  wheel_from_str : String → Except String WheelFilename
  sdist_parse : String → Option SourceDistFilename
  is_dir : FsPath → Bool
  pkg_info_name : FsPath → Option PackageName
  pyproject : FsPath → Option PyProjectToml
  setup_cfg_name : FsPath → Option PackageName
  get_url : VerbatimUrl → HashPolicy
  index_get : VerbatimUrl → Option UMetadataResponse
  build_wheel_metadata : BuildableSource → HashPolicy → Except String UArchive

/-- Split a character list on a separator character; always returns at least
one (possibly empty) segment. -/
def splitOnChar (sep : Char) : List Char → List (List Char)
  | [] => [[]]
  | c :: cs =>
    let rest := splitOnChar sep cs
    if c = sep then [] :: rest
    else
      match rest with
      | r :: rs => (c :: r) :: rs
      | [] => [[c]]

/-- The last component of a path, following `std::path::Path::file_name`: the
final non-empty segment, unless it is a current- or parent-directory
reference. -/
def lastPathComponent (p : String) : Option (List Char) :=
  match ((splitOnChar '/' p.data).filter (fun c => !c.isEmpty)).getLast? with
  | some c => if c = ['.'] ∨ c = ['.', '.'] then none else some c
  | none => none

/-- The extension of a path, following `std::path::Path::extension`: the part
of the file name after its last dot, absent when there is no dot or when the
only dot is the leading dot of a hidden file. -/
def extensionOf (p : String) : Option (List Char) :=
  match lastPathComponent p with
  | none => none
  | some f =>
    let parts := splitOnChar '.' f
    if parts.length ≤ 1 then none
    else if f.headD ' ' = '.' ∧ parts.length = 2 then none
    else parts.getLast?

/-- ASCII-case-insensitive equality with a lowercase word
(`str::eq_ignore_ascii_case`; `Char.toLower` lowercases exactly the ASCII
uppercase letters). -/
def eqIgnoreAsciiCase (a b : List Char) : Bool :=
  a.map Char.toLower == b.map Char.toLower

/-- The wheel test of `resolve_requirement`:
`Path::new(url.path()).extension().is_some_and(|ext| ext.eq_ignore_ascii_case("whl"))`. -/
def hasWhlExtension (u : VerbatimUrl) : Bool :=
  match extensionOf u.path with
  | some ext => eqIgnoreAsciiCase ext "whl".data
  | none => false

/-- The cache-insert effect of the fallback build: the metadata stored under
`VersionId::from_url(url)`, returned as data. -/
abbrev CacheInsert := Option (VerbatimUrl × UMetadataResponse)

/-- The `setup.cfg` step of the local-directory recognizers, reached when
PKG-INFO and pyproject.toml yielded no name: take `[metadata] name` when
readable, else fall through to a directory source for the on-demand build. -/
def afterPyproject (env : NameEnv) (requirement : UnnamedRequirement) (path : FsPath) :
    Except UError (Requirement ⊕ SourceUrl) :=
  match env.setup_cfg_name path with
  | some name =>
    .ok (.inl { name := name, extras := requirement.extras,
                version_or_url := some (.url requirement.url),
                marker := requirement.marker, origin := requirement.origin })
  | none => .ok (.inr (.directory requirement.url path))

/-- The scheme match of `resolve_requirement` (the Rust `let source = match
Scheme::parse(...)` block): either an early-returned named requirement
(`Sum.inl`, from the local-directory static-metadata recognizers: PKG-INFO,
then pyproject.toml `project.name`, then `tool.poetry.name`, then setup.cfg
`[metadata] name`), or the buildable source the URL classifies into
(`Sum.inr`), or an error for an unsupported scheme. -/
def sourceOrName (env : NameEnv) (requirement : UnnamedRequirement) :
    Except UError (Requirement ⊕ SourceUrl) :=
  match Scheme.parse requirement.url.scheme with
  | some .file =>
    match requirement.url.to_file_path with
    | none => .error (.panicNotFilePath requirement.url)
    | some path =>
      if env.is_dir path then
        match env.pkg_info_name path with
        | some name =>
          .ok (.inl { name := name, extras := requirement.extras,
                      version_or_url := some (.url requirement.url),
                      marker := requirement.marker, origin := requirement.origin })
        | none =>
          match env.pyproject path with
          | some pyproject =>
            match pyproject.project with
            | some project =>
              .ok (.inl { name := project.name, extras := requirement.extras,
                          version_or_url := some (.url requirement.url),
                          marker := requirement.marker, origin := requirement.origin })
            | none =>
              match pyproject.tool with
              | some tool =>
                match tool.poetry with
                | some poetry =>
                  match poetry.name with
                  | some name =>
                    .ok (.inl { name := name, extras := requirement.extras,
                                version_or_url := some (.url requirement.url),
                                marker := requirement.marker,
                                origin := requirement.origin })
                  | none => afterPyproject env requirement path
                | none => afterPyproject env requirement path
              | none => afterPyproject env requirement path
          | none => afterPyproject env requirement path
      else
        .ok (.inr (.path requirement.url path))
  | some .http | some .https => .ok (.inr (.direct requirement.url))
  | some .gitSsh | some .gitHttps => .ok (.inr (.git requirement.url))
  | none => .error (.unsupportedScheme requirement.url)

/-- The fallback of `resolve_requirement` once a buildable source is in hand:
take the name from the in-memory index when it already holds found metadata
for the source's URL, else run the on-demand metadata build (under the URL's
hash policy), recording the built metadata for insertion under
`VersionId::from_url(url)`. -/
def fetchFallback (env : NameEnv) (requirement : UnnamedRequirement) (source : SourceUrl) :
    Except UError (Requirement × CacheInsert) :=
  match env.index_get source.url with
  | some (UMetadataResponse.found archive) =>
    .ok ({ name := archive.metadata.name, extras := requirement.extras,
           version_or_url := some (.url requirement.url),
           marker := requirement.marker, origin := requirement.origin }, none)
  | _ =>
    match env.build_wheel_metadata (.url source) (env.get_url source.url) with
    | .error msg => .error (.buildFailure msg)
    | .ok archive =>
      .ok ({ name := archive.metadata.name, extras := requirement.extras,
             version_or_url := some (.url requirement.url),
             marker := requirement.marker, origin := requirement.origin },
           some (source.url, .found archive))

/-- `NamedRequirementsResolver::resolve_requirement`: infer the name of an
unnamed requirement.  The recognizers run in source order — wheel filename,
source-archive filename, local-directory static metadata, and finally the
on-demand metadata build over the source classified from the URL scheme. -/
def resolve_requirement (env : NameEnv) (requirement : UnnamedRequirement) :
    Except UError (Requirement × CacheInsert) :=
  if hasWhlExtension requirement.url then
    match requirement.url.filename with
    | .error msg => .error (.filenameError msg)
    | .ok filename =>
      match env.wheel_from_str filename with
      | .error msg => .error (.wheelParseError msg)
      | .ok parsed =>
        .ok ({ name := parsed.name, extras := requirement.extras,
               version_or_url := some (.url requirement.url),
               marker := requirement.marker, origin := requirement.origin }, none)
  else
    match requirement.url.filename.toOption.bind (fun f => env.sdist_parse f) with
    | some parsed =>
      .ok ({ name := parsed.name, extras := requirement.extras,
             version_or_url := some (.url requirement.url),
             marker := requirement.marker, origin := requirement.origin }, none)
    | none =>
      match sourceOrName env requirement with
      | .error e => .error e
      | .ok (.inl r) => .ok (r, none)
      | .ok (.inr source) => fetchFallback env requirement source

/-- Resolution of a single specification entry: named requirements pass
through unchanged (the `from_pep508` conversion being modelled as the
identity), unnamed requirements go through `resolve_requirement`. -/
def resolveEntry (env : NameEnv) :
    UnresolvedRequirement → Except UError (Requirement × CacheInsert)
  | .named r => .ok (r, none)
  | .unnamed r => resolve_requirement env r

/-- `NamedRequirementsResolver::resolve`: resolve all entries, preserving
input order, failing as a whole on the first (in input order) entry that
fails.  The source fans the entries out concurrently through a
`FuturesOrdered` and `try_collect`s; the observable semantics — outputs joined
in input order, the error of the earliest failing entry propagated — are those
of this sequential fold. -/
def resolve (env : NameEnv) : List UnresolvedRequirement → Except UError (List Requirement)
  | [] => .ok []
  | e :: es =>
    match resolveEntry env e with
    | .error err => .error err
    | .ok (r, _) =>
      match resolve env es with
      | .error err => .error err
      | .ok rs => .ok (r :: rs)

/-- The name a pyproject.toml yields, mirroring the source's nesting:
`project.name` when the `project` table is present, else `tool.poetry.name`.
Used only to state theorems about the fall-through to setup.cfg. -/
def pyprojectNameOf (pp : PyProjectToml) : Option PackageName :=
  match pp.project with
  | some project => some project.name
  | none =>
    match pp.tool with
    | some tool =>
      match tool.poetry with
      | some poetry => poetry.name
      | none => none
    | none => none

/-- The buildable source the fallback classifies a URL into, by scheme:
file-scheme URLs become directory or path sources depending on `is_dir`,
http(s) URLs direct sources, git+ssh/git+https URLs git sources.  Used only to
state theorems about the fallback path. -/
def classifiedSource (env : NameEnv) (u : VerbatimUrl) : Option SourceUrl :=
  match Scheme.parse u.scheme with
  | some .file =>
    match u.to_file_path with
    | some path => if env.is_dir path then some (.directory u path) else some (.path u path)
    | none => none
  | some .http | some .https => some (.direct u)
  | some .gitSsh | some .gitHttps => some (.git u)
  | none => none

/-- The requirement produced when name inference succeeds with name `n` for
input `req` (the record literal every success branch of `resolve_requirement`
constructs).  Used only to state theorems. -/
def namedFrom (req : UnnamedRequirement) (n : PackageName) : Requirement :=
  { name := n, extras := req.extras, version_or_url := some (.url req.url),
    marker := req.marker, origin := req.origin }

/-- A sample wheel URL, used as concrete input in witnesses. -/
def sampleWheelUrl : VerbatimUrl :=
  { scheme := "https", path := "/dist/anyio.whl", filename := .ok "anyio.whl",
    to_file_path := none }

/-- A sample unnamed wheel requirement, used as concrete input in witnesses. -/
def sampleWheelReq : UnnamedRequirement :=
  { url := sampleWheelUrl, extras := ["trio"], marker := some 7, origin := some 3 }

/-- A sample URL with an unsupported scheme, used as concrete input in
witnesses. -/
def sampleFtpUrl : VerbatimUrl :=
  { scheme := "ftp", path := "/x", filename := .error "no filename", to_file_path := none }

/-- A sample unnamed requirement with an unsupported scheme, used as concrete
input in witnesses. -/
def sampleFtpReq : UnnamedRequirement :=
  { url := sampleFtpUrl, extras := [], marker := none, origin := none }

/-- A sample file URL naming a local project directory, used as concrete
input in witnesses. -/
def sampleDirUrl : VerbatimUrl :=
  { scheme := "file", path := "/proj", filename := .error "no filename",
    to_file_path := some "/proj" }

/-- A sample unnamed requirement over a local project directory, used as
concrete input in witnesses. -/
def sampleDirReq : UnnamedRequirement :=
  { url := sampleDirUrl, extras := [], marker := none, origin := none }

/-- A sample named requirement, used as concrete input in witnesses. -/
def sampleNamed : Requirement :=
  { name := "flask", extras := [], version_or_url := none, marker := none, origin := none }

/-- A sample collaborator environment whose wheel parser succeeds with the
name `anyio`, used as concrete input in witnesses. -/
def sampleEnv : NameEnv :=
  { wheel_from_str := fun _ => .ok ⟨"anyio"⟩,
    sdist_parse := fun _ => none,
    is_dir := fun _ => true,
    pkg_info_name := fun _ => none,
    pyproject := fun _ => none,
    setup_cfg_name := fun _ => none,
    get_url := fun _ => 0,
    index_get := fun _ => none,
    build_wheel_metadata := fun _ _ => .error "build failed" }

/-- A sample collaborator environment whose wheel parser fails, used as
concrete input in witnesses. -/
def sampleBadWheelEnv : NameEnv :=
  { sampleEnv with wheel_from_str := fun _ => .error "invalid wheel" }

end Unnamed

namespace Unnamed

/-- Every early-returned (`Sum.inl`) requirement of the scheme match keeps the
input's extras, marker and origin and constrains by the original URL. -/
theorem sourceOrName_inl_frame (env : NameEnv) (req : UnnamedRequirement) (r : Requirement)
    (h : sourceOrName env req = .ok (.inl r)) :
    r.extras = req.extras ∧ r.marker = req.marker ∧ r.origin = req.origin ∧
      r.version_or_url = some (.url req.url) := by
  unfold sourceOrName afterPyproject at h
  repeat' split at h
  all_goals first
    | (simp only [Except.ok.injEq, Sum.inl.injEq] at h
       subst h
       exact ⟨rfl, rfl, rfl, rfl⟩)
    | simp at h

/-- C9: every successful branch of name inference leaves the input
requirement's extras, marker tree and origin unchanged in the output, and the
constraint of the output is always the original URL — the inferred name is the
only field added. -/
theorem C9_frame_preservation (env : NameEnv) (req : UnnamedRequirement)
    (r : Requirement) (c : CacheInsert)
    (h : resolve_requirement env req = .ok (r, c)) :
    r.extras = req.extras ∧ r.marker = req.marker ∧ r.origin = req.origin ∧
      r.version_or_url = some (.url req.url) := by
  unfold resolve_requirement at h
  split at h
  · repeat' split at h
    all_goals first
      | (simp only [Except.ok.injEq, Prod.mk.injEq] at h
         obtain ⟨rfl, rfl⟩ := h
         exact ⟨rfl, rfl, rfl, rfl⟩)
      | simp at h
  · split at h
    · simp only [Except.ok.injEq, Prod.mk.injEq] at h
      obtain ⟨rfl, rfl⟩ := h
      exact ⟨rfl, rfl, rfl, rfl⟩
    · split at h
      · simp at h
      · next heq =>
          simp only [Except.ok.injEq, Prod.mk.injEq] at h
          obtain ⟨rfl, rfl⟩ := h
          exact sourceOrName_inl_frame env req _ heq
      · next heq =>
          unfold fetchFallback at h
          repeat' split at h
          all_goals first
            | (simp only [Except.ok.injEq, Prod.mk.injEq] at h
               obtain ⟨rfl, rfl⟩ := h
               exact ⟨rfl, rfl, rfl, rfl⟩)
            | simp at h

/-- Witness for C9: a concrete wheel requirement resolves successfully and the
frame fields are preserved. -/
theorem C9_frame_preservation_witness :
    (namedFrom sampleWheelReq "anyio").extras = sampleWheelReq.extras ∧
    (namedFrom sampleWheelReq "anyio").marker = sampleWheelReq.marker ∧
    (namedFrom sampleWheelReq "anyio").origin = sampleWheelReq.origin ∧
    (namedFrom sampleWheelReq "anyio").version_or_url = some (.url sampleWheelReq.url) :=
  C9_frame_preservation sampleEnv sampleWheelReq (namedFrom sampleWheelReq "anyio") none rfl

/-- C10: a URL whose path has extension `whl` (case-insensitively) but whose
filename does not parse as a wheel filename makes `resolve_requirement` fail
instead of falling through; by contrast, a filename that fails to parse as a
source-archive name falls through silently to the next recognizer (here the
PKG-INFO recognizer, which then names the requirement). -/
theorem C10_wheel_strict_sdist_lenient (env : NameEnv) (req : UnnamedRequirement) :
    (∀ filename msg, hasWhlExtension req.url = true →
      req.url.filename = .ok filename →
      env.wheel_from_str filename = .error msg →
      resolve_requirement env req = .error (.wheelParseError msg)) ∧
    (∀ p n, hasWhlExtension req.url = false →
      req.url.filename.toOption.bind (fun f => env.sdist_parse f) = none →
      Scheme.parse req.url.scheme = some .file →
      req.url.to_file_path = some p →
      env.is_dir p = true →
      env.pkg_info_name p = some n →
      resolve_requirement env req = .ok (namedFrom req n, none)) := by
  constructor
  · intro filename msg h1 h2 h3
    simp only [resolve_requirement, h1, if_true, h2, h3]
  · intro p n h1 h2 h3 h4 h5 h6
    simp only [resolve_requirement, h1, Bool.false_eq_true, if_false, h2,
      sourceOrName, h3, h4, h5, if_true, h6, namedFrom]

/-- Witness for C10: a concrete `.whl` URL whose wheel parse fails makes the
resolution fail with the parse error. -/
theorem C10_wheel_strict_sdist_lenient_witness :
    resolve_requirement sampleBadWheelEnv sampleWheelReq =
      .error (.wheelParseError "invalid wheel") :=
  (C10_wheel_strict_sdist_lenient sampleBadWheelEnv sampleWheelReq).1
    "anyio.whl" "invalid wheel" (by decide) rfl rfl

/-- C7: on success, `resolve` returns one output per input, the i-th output
being the resolution of the i-th input (the ordered fan-out preserves input
order); and the first entry (in input order) whose resolution fails makes the
whole call return that error. -/
theorem C7_resolve_order_and_failfast (env : NameEnv) :
    (∀ entries out, resolve env entries = .ok out →
      out.length = entries.length ∧
      ∀ i, i < entries.length → ∃ e r c, entries.get? i = some e ∧
        resolveEntry env e = .ok (r, c) ∧ out.get? i = some r) ∧
    (∀ pre e post err, (∀ e' ∈ pre, ∃ r c, resolveEntry env e' = .ok (r, c)) →
      resolveEntry env e = .error err →
      resolve env (pre ++ e :: post) = .error err) := by
  constructor
  · intro entries
    induction entries with
    | nil =>
      intro out h
      simp only [resolve, Except.ok.injEq] at h
      subst h
      exact ⟨rfl, fun i hi => absurd hi (by simp)⟩
    | cons a es ih =>
      intro out h
      unfold resolve at h
      cases ha : resolveEntry env a with
      | error err => rw [ha] at h; exact absurd h (by simp)
      | ok rc =>
        rw [ha] at h
        cases hes : resolve env es with
        | error err => rw [hes] at h; exact absurd h (by simp)
        | ok rs =>
          rw [hes] at h
          simp only [Except.ok.injEq] at h
          subst h
          obtain ⟨hlen, hp⟩ := ih rs hes
          refine ⟨by simp [hlen], ?_⟩
          intro i hi
          cases i with
          | zero => exact ⟨a, rc.1, rc.2, rfl, by rw [ha], rfl⟩
          | succ j =>
            obtain ⟨e, r, c, he, hre, ho⟩ := hp j (by simpa using hi)
            exact ⟨e, r, c, by simpa using he, hre, by simpa using ho⟩
  · intro pre
    induction pre with
    | nil =>
      intro e post err _ he
      simp only [List.nil_append, resolve, he]
    | cons a pres ih =>
      intro e post err hok he
      obtain ⟨r, c, ha⟩ := hok a (by simp)
      simp only [List.cons_append, resolve, ha, List.append_eq]
      rw [ih e post err (fun e' h' => hok e' (by simp [h'])) he]

/-- Witness for C7: a concrete one-entry input resolves to a list of the same
length. -/
theorem C7_resolve_order_and_failfast_witness :
    ([sampleNamed] : List Requirement).length = [UnresolvedRequirement.named sampleNamed].length :=
  ((C7_resolve_order_and_failfast sampleEnv).1 [.named sampleNamed] [sampleNamed] rfl).1

end Unnamed

namespace Unnamed

/-- Reduction of `resolve_requirement` past the two filename recognizers. -/
theorem resolve_requirement_after (env : NameEnv) (req : UnnamedRequirement)
    (h1 : hasWhlExtension req.url = false)
    (h2 : req.url.filename.toOption.bind (fun f => env.sdist_parse f) = none) :
    resolve_requirement env req =
      match sourceOrName env req with
      | .error e => .error e
      | .ok (.inl r) => .ok (r, none)
      | .ok (.inr source) => fetchFallback env req source := by
  simp only [resolve_requirement, h1, Bool.false_eq_true, if_false, h2]

/-- When PKG-INFO and pyproject.toml yield no name, the scheme match reaches
the setup.cfg step. -/
theorem sourceOrName_after_pyproject (env : NameEnv) (req : UnnamedRequirement) (p : FsPath)
    (h3 : Scheme.parse req.url.scheme = some .file)
    (h4 : req.url.to_file_path = some p)
    (h5 : env.is_dir p = true)
    (h6 : env.pkg_info_name p = none)
    (h7 : (env.pyproject p).bind pyprojectNameOf = none) :
    sourceOrName env req = afterPyproject env req p := by
  simp only [sourceOrName, h3, h4, h5, if_true, h6]
  cases hpp : env.pyproject p with
  | none => rfl
  | some pp =>
    rw [hpp] at h7
    simp only [Option.some_bind] at h7
    cases hpr : pp.project with
    | some pr => simp [pyprojectNameOf, hpr] at h7
    | none =>
      simp only [hpr]
      cases ht : pp.tool with
      | none => simp only [ht]
      | some t =>
        simp only [ht]
        cases hpo : t.poetry with
        | none => simp only [hpo]
        | some po =>
          simp only [hpo]
          cases hn : po.name with
          | some m => simp [pyprojectNameOf, hpr, ht, hpo, hn] at h7
          | none => simp only [hn]

/-- When both filename recognizers fail and, for a directory source, the
static-metadata recognizers fail as well, name resolution reaches the
on-demand fallback over the scheme-classified source. -/
theorem resolve_requirement_reaches_fallback (env : NameEnv) (req : UnnamedRequirement)
    (src : SourceUrl)
    (h1 : hasWhlExtension req.url = false)
    (h2 : req.url.filename.toOption.bind (fun f => env.sdist_parse f) = none)
    (hcs : classifiedSource env req.url = some src)
    (hdir : ∀ p, src = .directory req.url p →
      env.pkg_info_name p = none ∧ (env.pyproject p).bind pyprojectNameOf = none ∧
        env.setup_cfg_name p = none) :
    resolve_requirement env req = fetchFallback env req src := by
  rw [resolve_requirement_after env req h1 h2]
  unfold classifiedSource at hcs
  cases hps : Scheme.parse req.url.scheme with
  | none => rw [hps] at hcs; exact absurd hcs (by simp)
  | some s =>
    rw [hps] at hcs
    cases s with
    | file =>
      cases hfp : req.url.to_file_path with
      | none => rw [hfp] at hcs; exact absurd hcs (by simp)
      | some p =>
        rw [hfp] at hcs
        cases hd : env.is_dir p with
        | true =>
          simp only [hd, if_true, Option.some.injEq] at hcs
          subst hcs
          obtain ⟨h6, h7, h8⟩ := hdir p rfl
          rw [sourceOrName_after_pyproject env req p hps hfp hd h6 h7]
          simp only [afterPyproject, h8]
        | false =>
          simp only [hd, Bool.false_eq_true, if_false, Option.some.injEq] at hcs
          subst hcs
          simp only [sourceOrName, hps, hfp, hd, Bool.false_eq_true, if_false]
    | http =>
      simp only [Option.some.injEq] at hcs
      subst hcs
      simp only [sourceOrName, hps]
    | https =>
      simp only [Option.some.injEq] at hcs
      subst hcs
      simp only [sourceOrName, hps]
    | gitSsh =>
      simp only [Option.some.injEq] at hcs
      subst hcs
      simp only [sourceOrName, hps]
    | gitHttps =>
      simp only [Option.some.injEq] at hcs
      subst hcs
      simp only [sourceOrName, hps]

/-- C2: name inference applies the recognizers in order — (1) wheel filename,
(2) source-archive filename, (3) for an existing local directory PKG-INFO,
then pyproject.toml `project.name`, then `tool.poetry.name`, then setup.cfg
`[metadata] name`, (4) the fallback on-demand metadata build over the source
classified by URL scheme (index first, then build) — with the first matching
recognizer determining the name, and already-named requirements passing
through unchanged. -/
theorem C2_recognizer_order (env : NameEnv) (req : UnnamedRequirement) :
    (∀ r, resolveEntry env (.named r) = .ok (r, none)) ∧
    (∀ filename w, hasWhlExtension req.url = true →
      req.url.filename = .ok filename →
      env.wheel_from_str filename = .ok w →
      resolve_requirement env req = .ok (namedFrom req w.name, none)) ∧
    (∀ sf, hasWhlExtension req.url = false →
      req.url.filename.toOption.bind (fun f => env.sdist_parse f) = some sf →
      resolve_requirement env req = .ok (namedFrom req sf.name, none)) ∧
    (∀ p n, hasWhlExtension req.url = false →
      req.url.filename.toOption.bind (fun f => env.sdist_parse f) = none →
      Scheme.parse req.url.scheme = some .file →
      req.url.to_file_path = some p → env.is_dir p = true →
      env.pkg_info_name p = some n →
      resolve_requirement env req = .ok (namedFrom req n, none)) ∧
    (∀ p pp pr, hasWhlExtension req.url = false →
      req.url.filename.toOption.bind (fun f => env.sdist_parse f) = none →
      Scheme.parse req.url.scheme = some .file →
      req.url.to_file_path = some p → env.is_dir p = true →
      env.pkg_info_name p = none →
      env.pyproject p = some pp → pp.project = some pr →
      resolve_requirement env req = .ok (namedFrom req pr.name, none)) ∧
    (∀ p pp t po n, hasWhlExtension req.url = false →
      req.url.filename.toOption.bind (fun f => env.sdist_parse f) = none →
      Scheme.parse req.url.scheme = some .file →
      req.url.to_file_path = some p → env.is_dir p = true →
      env.pkg_info_name p = none →
      env.pyproject p = some pp → pp.project = none →
      pp.tool = some t → t.poetry = some po → po.name = some n →
      resolve_requirement env req = .ok (namedFrom req n, none)) ∧
    (∀ p n, hasWhlExtension req.url = false →
      req.url.filename.toOption.bind (fun f => env.sdist_parse f) = none →
      Scheme.parse req.url.scheme = some .file →
      req.url.to_file_path = some p → env.is_dir p = true →
      env.pkg_info_name p = none →
      (env.pyproject p).bind pyprojectNameOf = none →
      env.setup_cfg_name p = some n →
      resolve_requirement env req = .ok (namedFrom req n, none)) ∧
    (∀ src, hasWhlExtension req.url = false →
      req.url.filename.toOption.bind (fun f => env.sdist_parse f) = none →
      classifiedSource env req.url = some src →
      (∀ p, src = .directory req.url p →
        env.pkg_info_name p = none ∧ (env.pyproject p).bind pyprojectNameOf = none ∧
          env.setup_cfg_name p = none) →
      resolve_requirement env req = fetchFallback env req src) ∧
    (∀ src archive, env.index_get src.url = some (.found archive) →
      fetchFallback env req src = .ok (namedFrom req archive.metadata.name, none)) ∧
    (∀ src archive, (∀ a, env.index_get src.url ≠ some (.found a)) →
      env.build_wheel_metadata (.url src) (env.get_url src.url) = .ok archive →
      fetchFallback env req src =
        .ok (namedFrom req archive.metadata.name, some (src.url, .found archive))) := by
  refine ⟨?_, ?_, ?_, ?_, ?_, ?_, ?_, ?_, ?_, ?_⟩
  · intro r; rfl
  · intro filename w h1 h2 h3
    simp only [resolve_requirement, h1, if_true, h2, h3, namedFrom]
  · intro sf h1 h2
    simp only [resolve_requirement, h1, Bool.false_eq_true, if_false, h2, namedFrom]
  · intro p n h1 h2 h3 h4 h5 h6
    simp only [resolve_requirement, h1, Bool.false_eq_true, if_false, h2,
      sourceOrName, h3, h4, h5, if_true, h6, namedFrom]
  · intro p pp pr h1 h2 h3 h4 h5 h6 h7 h8
    simp only [resolve_requirement, h1, Bool.false_eq_true, if_false, h2,
      sourceOrName, h3, h4, h5, if_true, h6, h7, h8, namedFrom]
  · intro p pp t po n h1 h2 h3 h4 h5 h6 h7 h8 h9 h10 h11
    simp only [resolve_requirement, h1, Bool.false_eq_true, if_false, h2,
      sourceOrName, h3, h4, h5, if_true, h6, h7, h8, h9, h10, h11, namedFrom]
  · intro p n h1 h2 h3 h4 h5 h6 h7 h8
    rw [resolve_requirement_after env req h1 h2,
      sourceOrName_after_pyproject env req p h3 h4 h5 h6 h7]
    simp only [afterPyproject, h8, namedFrom]
  · intro src h1 h2 hcs hdir
    exact resolve_requirement_reaches_fallback env req src h1 h2 hcs hdir
  · intro src archive hidx
    simp only [fetchFallback, hidx, namedFrom]
  · intro src archive hidx hbuild
    unfold fetchFallback
    cases h : env.index_get src.url with
    | none => simp only [hbuild, namedFrom]
    | some resp =>
      cases resp with
      | found a => exact absurd h (hidx a)
      | miss => simp only [hbuild, namedFrom]

/-- Witness for C2: the wheel recognizer names a concrete `.whl` requirement
first. -/
theorem C2_recognizer_order_witness :
    hasWhlExtension sampleWheelReq.url = true ∧
    resolve_requirement sampleEnv sampleWheelReq = .ok (namedFrom sampleWheelReq "anyio", none) :=
  ⟨by decide,
    (C2_recognizer_order sampleEnv sampleWheelReq).2.1 "anyio.whl" ⟨"anyio"⟩ (by decide) rfl rfl⟩

end Unnamed

namespace Resolver

/-- Looking up an edge in a cons cell. -/
theorem lookupEdge_cons (e : Edge) (es : List Edge) (a b : Nat) :
    lookupEdge (e :: es) a b =
      if e.source = a ∧ e.target = b then some e.range else lookupEdge es a b := by
  unfold lookupEdge
  rw [List.find?_cons]
  by_cases h : e.source = a ∧ e.target = b
  · simp [h]
  · simp [h]

/-- After `update_edge a b r`, the pair `(a, b)` maps to `r`. -/
theorem lookupEdge_updateEdgeList_self (es : List Edge) (a b : Nat) (r : VersionRange) :
    lookupEdge (updateEdgeList es a b r) a b = some r := by
  induction es with
  | nil =>
    unfold updateEdgeList
    rw [lookupEdge_cons]
    simp
  | cons e es ih =>
    unfold updateEdgeList
    by_cases he : e.source = a ∧ e.target = b
    · rw [if_pos he, lookupEdge_cons]
      simp
    · rw [if_neg he, lookupEdge_cons, if_neg he, ih]

/-- `update_edge a b r` does not affect other pairs. -/
theorem lookupEdge_updateEdgeList_ne (es : List Edge) (a b : Nat) (r : VersionRange)
    (a' b' : Nat) (h : ¬(a = a' ∧ b = b')) :
    lookupEdge (updateEdgeList es a b r) a' b' = lookupEdge es a' b' := by
  induction es with
  | nil =>
    unfold updateEdgeList
    rw [lookupEdge_cons]
    have hne : ¬((⟨a, b, r⟩ : Edge).source = a' ∧ (⟨a, b, r⟩ : Edge).target = b') := h
    rw [if_neg hne]
  | cons e es ih =>
    unfold updateEdgeList
    by_cases he : e.source = a ∧ e.target = b
    · rw [if_pos he, lookupEdge_cons, lookupEdge_cons]
      obtain ⟨hs, ht⟩ := he
      by_cases h2 : e.source = a' ∧ e.target = b'
      · exact absurd ⟨hs ▸ h2.1, ht ▸ h2.2⟩ h
      · have : ¬((⟨a, b, r⟩ : Edge).source = a' ∧ (⟨a, b, r⟩ : Edge).target = b') := by
          intro hc
          exact h2 ⟨hs.trans hc.1, ht.trans hc.2⟩
        rw [if_neg this, if_neg h2]
    · rw [if_neg he, lookupEdge_cons, lookupEdge_cons, ih]

/-- C5: during the edge pass, an inverted dependency incompatibility (the
iterated package is not the depending side) leaves the graph unchanged; so
does a self-edge whose two endpoints share a base name, and so does an
incompatibility whose self range does not contain the iterated package's
selected version; an incompatibility passing all three guards updates the edge
between the inverse-mapped endpoints with the dependency range; and
`update_edge` makes the latest written range the one the pair maps to,
touching no other pair. -/
theorem C5_edge_pass_rules (inverse : List (PackageName × Nat)) (p : PubGrubPackage)
    (v : Version) (g : Graph) (inc : Incompatibility) :
    (∀ sp r dp dr, inc.kind = .fromDependencyOf sp r dp dr → p ≠ sp →
      processIncompat inverse p v g inc = .ok g) ∧
    (∀ nm se su de du r dr,
      inc.kind = .fromDependencyOf (.package nm se su) r (.package nm de du) dr →
      processIncompat inverse p v g inc = .ok g) ∧
    (∀ sn se su r dp dr, inc.kind = .fromDependencyOf (.package sn se su) r dp dr →
      r.contains v = false → processIncompat inverse p v g inc = .ok g) ∧
    (∀ sn se su dn de du r dr si di,
      inc.kind = .fromDependencyOf (.package sn se su) r (.package dn de du) dr →
      p = .package sn se su → sn ≠ dn → r.contains v = true →
      lookupA inverse sn = some si → lookupA inverse dn = some di →
      processIncompat inverse p v g inc = .ok (g.updateEdge si di dr)) ∧
    (∀ a b rr a' b', lookupEdge (g.updateEdge a b rr).edges a' b' =
      if a = a' ∧ b = b' then some rr else lookupEdge g.edges a' b') := by
  refine ⟨?_, ?_, ?_, ?_, ?_⟩
  · intro sp r dp dr hk hne
    simp only [processIncompat, hk]
    rw [if_pos hne]
  · intro nm se su de du r dr hk
    simp only [processIncompat, hk]
    by_cases hp : p ≠ PubGrubPackage.package nm se su
    · rw [if_pos hp]
    · rw [if_neg hp]
      simp
  · intro sn se su r dp dr hk hc
    simp only [processIncompat, hk]
    by_cases hp : p ≠ PubGrubPackage.package sn se su
    · rw [if_pos hp]
    · rw [if_neg hp]
      cases dp with
      | root => simp
      | package dn de du =>
        by_cases hnm : sn = dn
        · simp [hnm]
        · simp [hnm, hc]
  · intro sn se su dn de du r dr si di hk hp hne hc hsi hdi
    simp only [processIncompat, hk]
    have hp2 : ¬ (p ≠ PubGrubPackage.package sn se su) := fun hn => hn hp
    rw [if_neg hp2]
    simp [hne, hc, hsi, hdi]
  · intro a b rr a' b'
    by_cases h : a = a' ∧ b = b'
    · obtain ⟨rfl, rfl⟩ := h
      rw [if_pos (And.intro rfl rfl)]
      exact lookupEdge_updateEdgeList_self g.edges a b rr
    · rw [if_neg h]
      exact lookupEdge_updateEdgeList_ne g.edges a b rr a' b' h

end Resolver

namespace Resolver

/-- A hash-map insert makes the key map to the inserted value. -/
theorem lookupA_upsertA_self {β : Type} (m : List (PackageName × β)) (k : PackageName) (v : β) :
    lookupA (upsertA m k v) k = some v := by
  induction m with
  | nil => simp [upsertA, lookupA]
  | cons e es ih =>
    unfold upsertA
    by_cases hek : e.1 = k
    · rw [if_pos hek]
      simp [lookupA]
    · rw [if_neg hek]
      unfold lookupA
      rw [List.find?_cons]
      have hbeq : (e.1 == k) = false := beq_eq_false_iff_ne.mpr hek
      simp only [hbeq]
      exact ih

/-- The first-version-map-with-hashes loop, characterised: it returns `ds`
exactly when some version map publishes `ds` for the version and every earlier
map publishes nothing. -/
theorem firstMapHashes_iff (v : Version) (ds : List HashDigest) :
    ∀ maps : List VersionMap, firstMapHashes maps v = some ds ↔
      ∃ pre m post, maps = pre ++ m :: post ∧ (∀ m' ∈ pre, m'.hashes v = none) ∧
        m.hashes v = some ds := by
  intro maps
  induction maps with
  | nil =>
    simp only [firstMapHashes]
    constructor
    · intro h; exact absurd h (by simp)
    · rintro ⟨pre, m, post, heq, -, -⟩
      exact absurd heq (by simp)
  | cons a ms ih =>
    unfold firstMapHashes
    cases ha : a.hashes v with
    | some ds0 =>
      constructor
      · intro h
        simp only [Option.some.injEq] at h
        subst h
        exact ⟨[], a, ms, rfl, by simp, ha⟩
      · rintro ⟨pre, m, post, heq, hpre, hm⟩
        cases pre with
        | nil =>
          simp only [List.nil_append, List.cons.injEq] at heq
          obtain ⟨rfl, rfl⟩ := heq
          rw [ha] at hm
          exact hm
        | cons p ps =>
          simp only [List.cons_append, List.cons.injEq] at heq
          obtain ⟨rfl, rfl⟩ := heq
          have hcontra := hpre a (by simp)
          rw [ha] at hcontra
          exact absurd hcontra (by simp)
    | none =>
      rw [ih]
      constructor
      · rintro ⟨pre, m, post, rfl, hpre, hm⟩
        refine ⟨a :: pre, m, post, rfl, ?_, hm⟩
        intro m' hm'
        rcases List.mem_cons.mp hm' with h' | h'
        · exact h' ▸ ha
        · exact hpre m' h'
      · rintro ⟨pre, m, post, heq, hpre, hm⟩
        cases pre with
        | nil =>
          simp only [List.nil_append, List.cons.injEq] at heq
          obtain ⟨rfl, rfl⟩ := heq
          rw [ha] at hm
          exact absurd hm (by simp)
        | cons p ps =>
          simp only [List.cons_append, List.cons.injEq] at heq
          obtain ⟨rfl, rfl⟩ := heq
          exact ⟨ps, m, post, rfl, fun m' h' => hpre m' (by simp [h']), hm⟩

/-- C3: for a registry node added by the node pass, the recorded hash list is
the preference match when a non-empty one exists, and otherwise the sorted
hash list of the first version map of the registry response that has hashes
for the selected version; the sort is a total, deterministic order on the
digests' canonical form (its output is sorted and a permutation of its input),
and "first version map with hashes" means every earlier map published none. -/
theorem C3_registry_hashes (inp : FromStateInputs) (st : NodeState) (n : PackageName)
    (v : Version) (st' : NodeState)
    (h : processNode inp st (.package n none none) v = .ok st') :
    (∀ ds, inp.preferences_match_hashes n v = some ds → ds ≠ [] →
      lookupA st'.hashes n = some ds) ∧
    ((inp.preferences_match_hashes n v).filter (fun digests => !digests.isEmpty) = none →
      ∀ maps ds, inp.packages n = some (.found maps) → firstMapHashes maps v = some ds →
        lookupA st'.hashes n = some (sortHashes ds)) ∧
    (∀ ds, List.Sorted (· ≤ ·) (sortHashes ds) ∧ (sortHashes ds).Perm ds) ∧
    (∀ maps ds, firstMapHashes maps v = some ds ↔
      ∃ pre m post, maps = pre ++ m :: post ∧ (∀ m' ∈ pre, m'.hashes v = none) ∧
        m.hashes v = some ds) := by
  refine ⟨?_, ?_, ?_, ?_⟩
  · intro ds hpref hne
    have hfil : (inp.preferences_match_hashes n v).filter
        (fun digests => !digests.isEmpty) = some ds := by
      rw [hpref]
      cases ds with
      | nil => exact absurd rfl hne
      | cons d tl => rfl
    unfold processNode at h
    simp only [hfil] at h
    cases hed : inp.editables n with
    | some pr =>
      simp only [hed, Except.ok.injEq] at h
      subst h
      exact lookupA_upsertA_self st.hashes n ds
    | none =>
      simp only [hed] at h
      cases hpin : inp.pins n v with
      | none => simp only [hpin] at h; exact absurd h (by simp)
      | some d =>
        simp only [hpin, Except.ok.injEq] at h
        subst h
        exact lookupA_upsertA_self st.hashes n ds
  · intro hfil maps ds hpk hfirst
    unfold processNode at h
    simp only [hfil, hpk, hfirst] at h
    cases hed : inp.editables n with
    | some pr =>
      simp only [hed, Except.ok.injEq] at h
      subst h
      exact lookupA_upsertA_self st.hashes n (sortHashes ds)
    | none =>
      simp only [hed] at h
      cases hpin : inp.pins n v with
      | none => simp only [hpin] at h; exact absurd h (by simp)
      | some d =>
        simp only [hpin, Except.ok.injEq] at h
        subst h
        exact lookupA_upsertA_self st.hashes n (sortHashes ds)
  · intro ds
    exact ⟨List.sorted_insertionSort (· ≤ ·) ds, List.perm_insertionSort (· ≤ ·) ds⟩
  · exact fun maps ds => firstMapHashes_iff v ds maps

end Resolver

namespace Resolver

/-- C4: an extra-group virtual package adds no graph node and leaves hashes
and the inverse map untouched; when the base distribution's effective metadata
declares the extra it is appended to the package's extras and no diagnostic is
emitted, and otherwise a `MissingExtra` diagnostic is appended and the extras
are untouched — in both cases the node pass returns `Ok` rather than
aborting. -/
theorem C4_missing_extra_diagnostic (inp : FromStateInputs) (st : NodeState) (n : PackageName)
    (e : ExtraName) (u : Option Url) (v : Version) (md : Metadata)
    (hmd : effectiveMetadata inp n (extraVersionId n v u) = some md)
    (hpin : inp.editables n = none → u = none → inp.pins n v ≠ none) :
    ∃ st', processNode inp st (.package n (some e) u) v = .ok st' ∧
      st'.petgraph = st.petgraph ∧ st'.inverse = st.inverse ∧ st'.hashes = st.hashes ∧
      (e ∈ md.provides_extras →
        st'.extras = pushExtra st.extras n e ∧ st'.diagnostics = st.diagnostics) ∧
      (e ∉ md.provides_extras →
        st'.extras = st.extras ∧
        ∃ d, st'.diagnostics = st.diagnostics ++ [.missingExtra d e]) := by
  cases u with
  | none =>
    cases hed : inp.editables n with
    | some pr =>
      obtain ⟨ed, emd⟩ := pr
      unfold effectiveMetadata at hmd
      rw [hed] at hmd
      simp only [Option.some.injEq] at hmd
      subst hmd
      by_cases hmem : e ∈ emd.provides_extras
      · refine ⟨{ st with extras := pushExtra st.extras n e }, ?_, rfl, rfl, rfl,
          fun _ => ⟨rfl, rfl⟩, fun hn => absurd hmem hn⟩
        simp only [processNode, hed]
        rw [if_pos hmem]
      · refine ⟨{ st with diagnostics := st.diagnostics ++
            [.missingExtra (Dist.from_editable n ed) e] }, ?_, rfl, rfl, rfl,
          fun hy => absurd hy hmem, fun _ => ⟨rfl, Dist.from_editable n ed, rfl⟩⟩
        simp only [processNode, hed]
        rw [if_neg hmem]
    | none =>
      unfold effectiveMetadata at hmd
      rw [hed] at hmd
      cases hdist : inp.distributions (VersionId.registry n v) with
      | none =>
        rw [show extraVersionId n v none = VersionId.registry n v from rfl, hdist] at hmd
        exact absurd hmd (by simp)
      | some resp =>
        rw [show extraVersionId n v none = VersionId.registry n v from rfl, hdist] at hmd
        cases resp with
        | miss => exact absurd hmd (by simp)
        | found archive =>
          simp only [Option.some.injEq] at hmd
          subst hmd
          by_cases hmem : e ∈ archive.metadata.provides_extras
          · refine ⟨{ st with extras := pushExtra st.extras n e }, ?_, rfl, rfl, rfl,
              fun _ => ⟨rfl, rfl⟩, fun hn => absurd hmem hn⟩
            simp only [processNode, hed, hdist]
            rw [if_pos hmem]
          · cases hpind : inp.pins n v with
            | none => exact absurd hpind (hpin hed rfl)
            | some pinned =>
              refine ⟨{ st with diagnostics := st.diagnostics ++
                  [.missingExtra pinned e] }, ?_, rfl, rfl, rfl,
                fun hy => absurd hy hmem, fun _ => ⟨rfl, pinned, rfl⟩⟩
              simp only [processNode, hed, hdist, hpind]
              rw [if_neg hmem]
  | some url =>
    cases hed : inp.editables n with
    | some pr =>
      obtain ⟨ed, emd⟩ := pr
      unfold effectiveMetadata at hmd
      rw [hed] at hmd
      simp only [Option.some.injEq] at hmd
      subst hmd
      by_cases hmem : e ∈ emd.provides_extras
      · refine ⟨{ st with extras := pushExtra st.extras n e }, ?_, rfl, rfl, rfl,
          fun _ => ⟨rfl, rfl⟩, fun hn => absurd hmem hn⟩
        simp only [processNode, hed]
        rw [if_pos hmem]
      · refine ⟨{ st with diagnostics := st.diagnostics ++
            [.missingExtra (Dist.from_editable n ed) e] }, ?_, rfl, rfl, rfl,
          fun hy => absurd hy hmem, fun _ => ⟨rfl, Dist.from_editable n ed, rfl⟩⟩
        simp only [processNode, hed]
        rw [if_neg hmem]
    | none =>
      unfold effectiveMetadata at hmd
      rw [hed] at hmd
      cases hdist : inp.distributions (VersionId.url url) with
      | none =>
        rw [show extraVersionId n v (some url) = VersionId.url url from rfl, hdist] at hmd
        exact absurd hmd (by simp)
      | some resp =>
        rw [show extraVersionId n v (some url) = VersionId.url url from rfl, hdist] at hmd
        cases resp with
        | miss => exact absurd hmd (by simp)
        | found archive =>
          simp only [Option.some.injEq] at hmd
          subst hmd
          by_cases hmem : e ∈ archive.metadata.provides_extras
          · refine ⟨{ st with extras := pushExtra st.extras n e }, ?_, rfl, rfl, rfl,
              fun _ => ⟨rfl, rfl⟩, fun hn => absurd hmem hn⟩
            simp only [processNode, hed, hdist]
            rw [if_pos hmem]
          · refine ⟨{ st with diagnostics := st.diagnostics ++
                [.missingExtra (Dist.from_url n (preciseUrl inp url)) e] }, ?_, rfl, rfl, rfl,
              fun hy => absurd hy hmem,
              fun _ => ⟨rfl, Dist.from_url n (preciseUrl inp url), rfl⟩⟩
            simp only [processNode, hed, hdist]
            rw [if_neg hmem]

end Resolver

namespace Resolver

/-- Membership in the seen-set after inserting a parameter. -/
theorem mem_insertParam (q p : MarkerParam) (set : List MarkerParam) :
    q ∈ insertParam p set ↔ q ∈ set ∨ q = p := by
  unfold insertParam
  by_cases h : p ∈ set
  · rw [if_pos h]
    constructor
    · exact Or.inl
    · rintro (hq | rfl)
      · exact hq
      · exact h
  · rw [if_neg h]
    simp [List.mem_append]

/-- Inserting a parameter keeps the seen-set duplicate-free. -/
theorem nodup_insertParam (p : MarkerParam) (set : List MarkerParam) (h : set.Nodup) :
    (insertParam p set).Nodup := by
  unfold insertParam
  by_cases hp : p ∈ set
  · rwa [if_pos hp]
  · rw [if_neg hp]
    rw [List.nodup_append]
    exact ⟨h, List.nodup_singleton p,
      fun a ha hb => hp ((List.mem_singleton.mp hb) ▸ ha)⟩

/-- Membership in the seen-set after recording one marker operand. -/
theorem mem_add_marker_value (q : MarkerParam) (value : MarkerValue) (set : List MarkerParam) :
    q ∈ add_marker_value value set ↔ q ∈ set ∨ valueParam value = some q := by
  cases value with
  | envVersion p => simp [add_marker_value, valueParam, mem_insertParam, eq_comm]
  | envString p => simp [add_marker_value, valueParam, mem_insertParam, eq_comm]
  | extra => simp [add_marker_value, valueParam]
  | quoted s => simp [add_marker_value, valueParam]

/-- Recording one marker operand keeps the seen-set duplicate-free. -/
theorem nodup_add_marker_value (value : MarkerValue) (set : List MarkerParam)
    (h : set.Nodup) : (add_marker_value value set).Nodup := by
  cases value with
  | envVersion p => exact nodup_insertParam _ set h
  | envString p => exact nodup_insertParam _ set h
  | extra => exact h
  | quoted s => exact h

mutual

/-- Membership in the seen-set after collecting a whole tree: the old members
plus the parameters occurring in the tree. -/
theorem mem_add_marker_params (q : MarkerParam) :
    ∀ (t : MarkerTree) (set : List MarkerParam),
      q ∈ add_marker_params_from_tree t set ↔ q ∈ set ∨ TreeHasParam q t
  | .expression e, set => by
    simp only [add_marker_params_from_tree, TreeHasParam]
    rw [mem_add_marker_value, mem_add_marker_value]
    tauto
  | .and l, set => by
    simp only [add_marker_params_from_tree, TreeHasParam]
    exact mem_addParamsList q l set
  | .or l, set => by
    simp only [add_marker_params_from_tree, TreeHasParam]
    exact mem_addParamsList q l set

/-- Membership in the seen-set after collecting a list of trees. -/
theorem mem_addParamsList (q : MarkerParam) :
    ∀ (l : List MarkerTree) (set : List MarkerParam),
      q ∈ addParamsList l set ↔ q ∈ set ∨ ListHasParam q l
  | [], set => by simp [addParamsList, ListHasParam]
  | t :: ts, set => by
    simp only [addParamsList, ListHasParam]
    rw [mem_addParamsList q ts (add_marker_params_from_tree t set),
      mem_add_marker_params q t set]
    tauto

end

mutual

/-- Collecting a tree keeps the seen-set duplicate-free. -/
theorem nodup_add_marker_params :
    ∀ (t : MarkerTree) (set : List MarkerParam), set.Nodup →
      (add_marker_params_from_tree t set).Nodup
  | .expression e, set, h => by
    simp only [add_marker_params_from_tree]
    exact nodup_add_marker_value _ _ (nodup_add_marker_value _ _ h)
  | .and l, set, h => by
    simp only [add_marker_params_from_tree]
    exact nodup_addParamsList l set h
  | .or l, set, h => by
    simp only [add_marker_params_from_tree]
    exact nodup_addParamsList l set h

/-- Collecting a list of trees keeps the seen-set duplicate-free. -/
theorem nodup_addParamsList :
    ∀ (l : List MarkerTree) (set : List MarkerParam), set.Nodup →
      (addParamsList l set).Nodup
  | [], _, h => by simpa only [addParamsList] using h
  | t :: ts, set, h => by
    simp only [addParamsList]
    exact nodup_addParamsList ts _ (nodup_add_marker_params t set h)

end

/-- Membership in the seen-set after collecting one requirement's marker. -/
theorem mem_collectReq (q : MarkerParam) (set : List MarkerParam) (a : Requirement) :
    q ∈ collectReq set a ↔ q ∈ set ∨ ∃ t, a.marker = some t ∧ TreeHasParam q t := by
  unfold collectReq
  cases ha : a.marker with
  | none => simp
  | some tt =>
    rw [mem_add_marker_params]
    simp

/-- Collecting one requirement keeps the seen-set duplicate-free. -/
theorem nodup_collectReq (set : List MarkerParam) (a : Requirement) (h : set.Nodup) :
    (collectReq set a).Nodup := by
  unfold collectReq
  cases ha : a.marker with
  | none => exact h
  | some tt => exact nodup_add_marker_params tt set h

/-- Membership in the seen-set after folding over a requirement list. -/
theorem mem_foldl_collectReq (q : MarkerParam) :
    ∀ (reqs : List Requirement) (set : List MarkerParam),
      q ∈ reqs.foldl collectReq set ↔
        q ∈ set ∨ ∃ req ∈ reqs, ∃ t, req.marker = some t ∧ TreeHasParam q t := by
  intro reqs
  induction reqs with
  | nil => intro set; simp
  | cons a rs ih =>
    intro set
    rw [List.foldl_cons, ih, mem_collectReq]
    simp only [List.mem_cons, exists_eq_or_imp]
    exact or_assoc

/-- Folding over a requirement list keeps the seen-set duplicate-free. -/
theorem nodup_foldl_collectReq :
    ∀ (reqs : List Requirement) (set : List MarkerParam), set.Nodup →
      (reqs.foldl collectReq set).Nodup
  | [], _, h => h
  | a :: rs, set, h => by
    rw [List.foldl_cons]
    exact nodup_foldl_collectReq rs _ (nodup_collectReq set a h)

/-- The node-collection pass, characterised: on success the seen-set holds the
old members plus every parameter occurring in a marker of the
(manifest-applied) requires-dist of a node's found metadata, and it stays
duplicate-free. -/
theorem collectNodes_ok (manifest : Manifest)
    (distributions : VersionId → Option MetadataResponse) :
    ∀ (nodes : List Dist) (set out : List MarkerParam),
      collectNodes manifest distributions nodes set = .ok out →
      (set.Nodup → out.Nodup) ∧
      ∀ q, q ∈ out ↔ q ∈ set ∨ ∃ d ∈ nodes, ∃ archive,
        distributions d.version_id = some (MetadataResponse.found archive) ∧
        ∃ req ∈ manifest.apply archive.metadata.requires_dist, ∃ t,
          req.marker = some t ∧ TreeHasParam q t := by
  intro nodes
  induction nodes with
  | nil =>
    intro set out h
    simp only [collectNodes, Except.ok.injEq] at h
    subst h
    exact ⟨id, fun q => by simp⟩
  | cons d ds ih =>
    intro set out h
    unfold collectNodes collectNode at h
    cases hdist : distributions d.version_id with
    | none => rw [hdist] at h; exact absurd h (by simp)
    | some resp =>
      rw [hdist] at h
      cases resp with
      | miss => exact absurd h (by simp)
      | found archive =>
        obtain ⟨hnd, hmem⟩ := ih _ out h
        constructor
        · intro hset
          exact hnd (nodup_foldl_collectReq _ _ hset)
        · intro q
          rw [hmem q, mem_foldl_collectReq]
          simp only [List.mem_cons, exists_eq_or_imp, hdist, Option.some.injEq,
            MetadataResponse.found.injEq, exists_eq_left, exists_eq_left']
          exact or_assoc

/-- The conjunct pinning a parameter evaluates to true under the environment
it pins. -/
theorem eval_pinExpr (env : MarkerEnvironment) (q : MarkerParam) :
    MarkerExpression.eval env (pinExpr env q) = true := by
  cases q with
  | version p => simp [pinExpr, MarkerExpression.eval, MarkerValue.eval]
  | string p => simp [pinExpr, MarkerExpression.eval, MarkerValue.eval]

/-- A conjunction of pinned-parameter conjuncts evaluates to true under the
pinned environment. -/
theorem evalAll_map_pin (env : MarkerEnvironment) :
    ∀ ps : List MarkerParam,
      MarkerTree.evalAll env (ps.map (fun q => .expression (pinExpr env q))) = true
  | [] => by simp [MarkerTree.evalAll]
  | p :: ps => by
    rw [List.map_cons]
    simp only [MarkerTree.evalAll, MarkerTree.eval]
    rw [eval_pinExpr, evalAll_map_pin env ps]
    rfl

/-- C6: `marker_tree` returns the conjunction of one equality conjunct per
marker parameter observed in the requires-dist markers of the graph's nodes or
in the direct and editable-declared requirements, each pinning that parameter
to its value in the given environment; an empty observed set yields the empty
(trivially true) conjunction, and the returned tree always evaluates to true
under the original environment. -/
theorem C6_marker_tree_projection (G : ResolutionGraph) (manifest : Manifest)
    (distributions : VersionId → Option MetadataResponse) (env : MarkerEnvironment)
    (t : MarkerTree) (h : marker_tree G manifest distributions env = .ok t) :
    MarkerTree.eval env t = true ∧
    ∃ ps : List MarkerParam,
      t = .and (ps.map (fun q => .expression (pinExpr env q))) ∧ ps.Nodup ∧
      (∀ q, q ∈ ps ↔ ObservedParam G manifest distributions q) ∧
      ((∀ q, ¬ ObservedParam G manifest distributions q) → t = .and []) := by
  unfold marker_tree at h
  cases hcn : collectNodes manifest distributions G.petgraph.nodes [] with
  | error e => rw [hcn] at h; exact absurd h (by simp)
  | ok seen =>
    rw [hcn] at h
    simp only [Except.ok.injEq] at h
    subst h
    obtain ⟨hnd, hmem⟩ := collectNodes_ok manifest distributions G.petgraph.nodes [] seen hcn
    have hpsnd : ((manifest.apply (directReqs manifest)).foldl collectReq seen).Nodup :=
      nodup_foldl_collectReq _ _ (hnd List.nodup_nil)
    have hpsmem : ∀ q, q ∈ (manifest.apply (directReqs manifest)).foldl collectReq seen ↔
        ObservedParam G manifest distributions q := by
      intro q
      rw [mem_foldl_collectReq, hmem q]
      unfold ObservedParam
      simp only [List.not_mem_nil, false_or]
    refine ⟨?_, (manifest.apply (directReqs manifest)).foldl collectReq seen,
      rfl, hpsnd, hpsmem, ?_⟩
    · simp only [MarkerTree.eval]
      exact evalAll_map_pin env _
    · intro hnone
      have hnil : (manifest.apply (directReqs manifest)).foldl collectReq seen = [] :=
        List.eq_nil_iff_forall_not_mem.mpr (fun q hq => hnone q ((hpsmem q).mp hq))
      rw [hnil]
      rfl

end Resolver

namespace Resolver

/-- A binding in an upserted map is the new binding or an old one. -/
theorem mem_upsertA {β : Type} (m : List (PackageName × β)) (k : PackageName) (v : β)
    (k' : PackageName) (v' : β) (h : (k', v') ∈ upsertA m k v) :
    (k' = k ∧ v' = v) ∨ (k', v') ∈ m := by
  induction m with
  | nil =>
    simp only [upsertA, List.mem_singleton, Prod.mk.injEq] at h
    exact Or.inl h
  | cons e es ih =>
    unfold upsertA at h
    by_cases hek : e.1 = k
    · rw [if_pos hek] at h
      rcases List.mem_cons.mp h with h1 | h1
      · simp only [Prod.mk.injEq] at h1
        exact Or.inl h1
      · exact Or.inr (List.mem_cons_of_mem e h1)
    · rw [if_neg hek] at h
      rcases List.mem_cons.mp h with h1 | h1
      · exact Or.inr (h1 ▸ List.mem_cons_self e es)
      · rcases ih h1 with h2 | h2
        · exact Or.inl h2
        · exact Or.inr (List.mem_cons_of_mem e h2)

/-- A successful map lookup is a binding of the map. -/
theorem lookupA_mem {β : Type} (m : List (PackageName × β)) (k : PackageName) (v : β)
    (h : lookupA m k = some v) : (k, v) ∈ m := by
  unfold lookupA at h
  cases hf : m.find? (fun e => e.1 == k) with
  | none => rw [hf] at h; exact absurd h (by simp)
  | some e =>
    rw [hf] at h
    simp only [Option.map_some', Option.some.injEq] at h
    have hmem := List.mem_of_find?_eq_some hf
    have hpred := List.find?_some hf
    simp only [beq_iff_eq] at hpred
    have he : e = (k, v) := by
      cases e
      simp only [Prod.mk.injEq]
      exact ⟨hpred, h⟩
    exact he ▸ hmem

/-- The node pass never touches edges, and only appends nodes. -/
theorem processNode_graph (inp : FromStateInputs) (st : NodeState)
    (p : PubGrubPackage) (v : Version) (st' : NodeState)
    (h : processNode inp st p v = .ok st') :
    st'.petgraph.edges = st.petgraph.edges ∧
    ∃ l, st'.petgraph.nodes = st.petgraph.nodes ++ l := by
  cases p with
  | root =>
    simp only [processNode, Except.ok.injEq] at h
    subst h
    exact ⟨rfl, [], by simp⟩
  | package pn eo uo =>
    cases eo <;> cases uo <;>
      (unfold processNode at h
       repeat' split at h
       all_goals first
         | (simp only [Except.ok.injEq] at h
            subst h
            first
              | exact ⟨rfl, _, rfl⟩
              | exact ⟨rfl, [], by simp⟩)
         | simp at h)

end Resolver

namespace Resolver

/-- One node-pass step preserves the inverse-map invariant. -/
theorem processNode_inverseOk (inp : FromStateInputs) (st : NodeState)
    (p : PubGrubPackage) (v : Version) (st' : NodeState)
    (hpins : PinsVersioned inp) (hsel : (p, v) ∈ inp.selection)
    (hinv : InverseOk inp st) (h : processNode inp st p v = .ok st') :
    InverseOk inp st' := by
  intro n' i hmem
  cases p with
  | root =>
    simp only [processNode, Except.ok.injEq] at h
    subst h
    exact hinv n' i hmem
  | package pn eo uo =>
    cases eo with
    | some ex =>
      have hpe : st'.petgraph = st.petgraph ∧ st'.inverse = st.inverse := by
        cases uo <;>
          (simp only [processNode] at h
           repeat' split at h
           all_goals first
             | (simp only [Except.ok.injEq] at h; subst h; exact ⟨rfl, rfl⟩)
             | simp at h)
      rw [hpe.2] at hmem
      obtain ⟨d, hget, u, w, hs, hv⟩ := hinv n' i hmem
      exact ⟨d, hpe.1 ▸ hget, u, w, hs, hv⟩
    | none =>
      cases uo with
      | none =>
        unfold processNode at h
        cases hed : inp.editables pn with
        | some pr =>
          obtain ⟨ed, emd⟩ := pr
          simp only [hed, Graph.addNode, Except.ok.injEq] at h
          subst h
          rcases mem_upsertA _ _ _ _ _ hmem with ⟨rfl, rfl⟩ | hold
          · refine ⟨Dist.from_editable n' ed, by simp [List.getElem?_concat_length], none, v,
              hsel, ?_⟩
            intro w' hw'
            simp [Dist.from_editable, Dist.version] at hw'
          · obtain ⟨d, hget, u, w, hs, hv⟩ := hinv n' i hold
            obtain ⟨hlt, -⟩ := List.getElem?_eq_some.mp hget
            refine ⟨d, ?_, u, w, hs, hv⟩
            show (st.petgraph.nodes ++ [Dist.from_editable pn ed])[i]? = some d
            rw [List.getElem?_append_left hlt]
            exact hget
        | none =>
          simp only [hed] at h
          cases hpind : inp.pins pn v with
          | none => simp only [hpind] at h; exact absurd h (by simp)
          | some d0 =>
            simp only [hpind, Graph.addNode, Except.ok.injEq] at h
            subst h
            rcases mem_upsertA _ _ _ _ _ hmem with ⟨rfl, rfl⟩ | hold
            · exact ⟨d0, by simp [List.getElem?_concat_length], none, v, hsel,
                fun w' hw' => hpins n' v d0 hpind w' hw'⟩
            · obtain ⟨d, hget, u, w, hs, hv⟩ := hinv n' i hold
              obtain ⟨hlt, -⟩ := List.getElem?_eq_some.mp hget
              refine ⟨d, ?_, u, w, hs, hv⟩
              show (st.petgraph.nodes ++ [d0])[i]? = some d
              rw [List.getElem?_append_left hlt]
              exact hget
      | some url =>
        simp only [processNode, Graph.addNode, Except.ok.injEq] at h
        subst h
        rcases mem_upsertA _ _ _ _ _ hmem with ⟨rfl, rfl⟩ | hold
        · cases hed : inp.editables n' with
          | some pr =>
            obtain ⟨ed, emd⟩ := pr
            refine ⟨Dist.from_editable n' ed, ?_, some url, v, hsel, ?_⟩
            · simp [hed, List.getElem?_concat_length]
            · intro w' hw'
              simp [Dist.from_editable, Dist.version] at hw'
          | none =>
            refine ⟨Dist.from_url n' (preciseUrl inp url), ?_, some url, v, hsel, ?_⟩
            · simp [hed, List.getElem?_concat_length]
            · intro w' hw'
              simp [Dist.from_url, Dist.version] at hw'
        · obtain ⟨d, hget, u, w, hs, hv⟩ := hinv n' i hold
          obtain ⟨hlt, -⟩ := List.getElem?_eq_some.mp hget
          refine ⟨d, ?_, u, w, hs, hv⟩
          refine Eq.trans (List.getElem?_append_left hlt) hget

end Resolver

namespace Resolver

/-- The node pass preserves the inverse-map invariant. -/
theorem nodePass_inverseOk (inp : FromStateInputs) (hpins : PinsVersioned inp) :
    ∀ (l : List (PubGrubPackage × Version)) (st st' : NodeState),
      (∀ x ∈ l, x ∈ inp.selection) → InverseOk inp st →
      nodePass inp l st = .ok st' → InverseOk inp st'
  | [], st, st', _, hinv, h => by
    simp only [nodePass, Except.ok.injEq] at h
    subst h
    exact hinv
  | (p, v) :: rest, st, st', hl, hinv, h => by
    unfold nodePass at h
    cases hp : processNode inp st p v with
    | error e => rw [hp] at h; exact absurd h (by simp)
    | ok st1 =>
      rw [hp] at h
      exact nodePass_inverseOk inp hpins rest st1 st' (fun x hx => hl x (by simp [hx]))
        (processNode_inverseOk inp st p v st1 hpins (hl (p, v) (by simp)) hinv hp) h

/-- The node pass leaves the edge list unchanged. -/
theorem nodePass_edges (inp : FromStateInputs) :
    ∀ (l : List (PubGrubPackage × Version)) (st st' : NodeState),
      nodePass inp l st = .ok st' → st'.petgraph.edges = st.petgraph.edges
  | [], st, st', h => by
    simp only [nodePass, Except.ok.injEq] at h
    subst h
    rfl
  | (p, v) :: rest, st, st', h => by
    unfold nodePass at h
    cases hp : processNode inp st p v with
    | error e => rw [hp] at h; exact absurd h (by simp)
    | ok st1 =>
      rw [hp] at h
      rw [nodePass_edges inp rest st1 st' h, (processNode_graph inp st p v st1 hp).1]

/-- Every edge of an updated edge list is an old edge or the written one. -/
theorem mem_updateEdgeList (es : List Edge) (a b : Nat) (r : VersionRange) (e : Edge)
    (h : e ∈ updateEdgeList es a b r) : e ∈ es ∨ e = ⟨a, b, r⟩ := by
  induction es with
  | nil =>
    simp only [updateEdgeList, List.mem_singleton] at h
    exact Or.inr h
  | cons e0 es ih =>
    unfold updateEdgeList at h
    by_cases h0 : e0.source = a ∧ e0.target = b
    · rw [if_pos h0] at h
      rcases List.mem_cons.mp h with h1 | h1
      · exact Or.inr h1
      · exact Or.inl (List.mem_cons_of_mem e0 h1)
    · rw [if_neg h0] at h
      rcases List.mem_cons.mp h with h1 | h1
      · exact Or.inl (h1 ▸ List.mem_cons_self e0 es)
      · rcases ih h1 with h2 | h2
        · exact Or.inl (List.mem_cons_of_mem e0 h2)
        · exact Or.inr h2

/-- The edge pass leaves the node arena unchanged (one incompatibility). -/
theorem processIncompat_nodes (inverse : List (PackageName × Nat)) (p : PubGrubPackage)
    (v : Version) (g : Graph) (inc : Incompatibility) (g' : Graph)
    (h : processIncompat inverse p v g inc = .ok g') : g'.nodes = g.nodes := by
  unfold processIncompat at h
  repeat' split at h
  all_goals first
    | (simp only [Except.ok.injEq] at h; subst h; rfl)
    | simp at h

/-- Every edge present after processing one incompatibility was already
present, or carries the provenance of that incompatibility. -/
theorem processIncompat_prov (inp : FromStateInputs) (inverse : List (PackageName × Nat))
    (p : PubGrubPackage) (v : Version) (g : Graph) (inc : Incompatibility) (g' : Graph)
    (hsel : (p, v) ∈ inp.selection) (hin : inc ∈ inp.incompatibilities p)
    (h : processIncompat inverse p v g inc = .ok g') :
    ∀ e ∈ g'.edges, e ∈ g.edges ∨ EdgeProv inp inverse e := by
  intro e he
  unfold processIncompat at h
  cases hk : inc.kind with
  | other =>
    simp only [hk, Except.ok.injEq] at h
    subst h
    exact Or.inl he
  | fromDependencyOf sp r dp dr =>
    simp only [hk] at h
    by_cases hps : p ≠ sp
    · rw [if_pos hps] at h
      simp only [Except.ok.injEq] at h
      subst h
      exact Or.inl he
    · rw [if_neg hps] at h
      have hpeq : p = sp := not_not.mp hps
      cases sp with
      | root =>
        dsimp only at h
        simp only [Except.ok.injEq] at h
        subst h
        exact Or.inl he
      | package sn se su =>
        cases dp with
        | root =>
          dsimp only at h
          simp only [Except.ok.injEq] at h
          subst h
          exact Or.inl he
        | package dn de du =>
          dsimp only at h
          by_cases hnm : sn = dn
          · rw [if_pos hnm] at h
            simp only [Except.ok.injEq] at h
            subst h
            exact Or.inl he
          · rw [if_neg hnm] at h
            cases hc : VersionRange.contains r v with
            | false =>
              rw [hc] at h
              simp only [Bool.false_eq_true, if_false, Except.ok.injEq] at h
              subst h
              exact Or.inl he
            | true =>
              rw [hc] at h
              rw [if_pos rfl] at h
              cases hsi : lookupA inverse sn with
              | none => simp only [hsi] at h; exact absurd h (by simp)
              | some si =>
                simp only [hsi] at h
                cases hdi : lookupA inverse dn with
                | none => simp only [hdi] at h; exact absurd h (by simp)
                | some di =>
                  simp only [hdi, Except.ok.injEq] at h
                  subst h
                  rcases mem_updateEdgeList g.edges si di dr e he with h1 | h1
                  · exact Or.inl h1
                  · refine Or.inr ⟨p, v, hsel, inc, hin, r, dr, sn, se, su, dn, de, du,
                      hpeq ▸ hk, hpeq, hc, ?_, ?_⟩
                    · rw [h1]
                      exact hdi
                    · rw [h1]

end Resolver

namespace Resolver

/-- Edge provenance through all incompatibilities of one selection entry. -/
theorem processIncompats_prov (inp : FromStateInputs) (inverse : List (PackageName × Nat))
    (p : PubGrubPackage) (v : Version) (hsel : (p, v) ∈ inp.selection) :
    ∀ (incs : List Incompatibility) (g g' : Graph),
      (∀ i ∈ incs, i ∈ inp.incompatibilities p) →
      processIncompats inverse p v incs g = .ok g' →
      (g'.nodes = g.nodes ∧ ∀ e ∈ g'.edges, e ∈ g.edges ∨ EdgeProv inp inverse e)
  | [], g, g', _, h => by
    simp only [processIncompats, Except.ok.injEq] at h
    subst h
    exact ⟨rfl, fun e he => Or.inl he⟩
  | inc :: incs, g, g', hl, h => by
    unfold processIncompats at h
    cases hp : processIncompat inverse p v g inc with
    | error e0 => rw [hp] at h; exact absurd h (by simp)
    | ok g1 =>
      rw [hp] at h
      obtain ⟨hn, he⟩ := processIncompats_prov inp inverse p v hsel incs g1 g'
        (fun i hi => hl i (by simp [hi])) h
      refine ⟨hn.trans (processIncompat_nodes inverse p v g inc g1 hp), ?_⟩
      intro e hee
      rcases he e hee with h1 | h1
      · exact processIncompat_prov inp inverse p v g inc g1 hsel (hl inc (by simp)) hp e h1
      · exact Or.inr h1

/-- Edge provenance through the whole edge pass. -/
theorem edgePass_prov (inp : FromStateInputs) (inverse : List (PackageName × Nat)) :
    ∀ (l : List (PubGrubPackage × Version)) (g g' : Graph),
      (∀ x ∈ l, x ∈ inp.selection) →
      edgePass inp inverse l g = .ok g' →
      (g'.nodes = g.nodes ∧ ∀ e ∈ g'.edges, e ∈ g.edges ∨ EdgeProv inp inverse e)
  | [], g, g', _, h => by
    simp only [edgePass, Except.ok.injEq] at h
    subst h
    exact ⟨rfl, fun e he => Or.inl he⟩
  | (p, v) :: rest, g, g', hl, h => by
    unfold edgePass at h
    cases hp : processIncompats inverse p v (inp.incompatibilities p) g with
    | error e0 => rw [hp] at h; exact absurd h (by simp)
    | ok g1 =>
      rw [hp] at h
      obtain ⟨hn1, he1⟩ := processIncompats_prov inp inverse p v (hl (p, v) (by simp))
        (inp.incompatibilities p) g g1 (fun i hi => hi) hp
      obtain ⟨hn2, he2⟩ := edgePass_prov inp inverse rest g1 g'
        (fun x hx => hl x (by simp [hx])) h
      refine ⟨hn2.trans hn1, ?_⟩
      intro e hee
      rcases he2 e hee with h1 | h1
      · exact he1 e h1
      · exact Or.inr h1

/-- C1: assuming the Selection invariants (every active dependency constraint
is satisfied by the selected version of its target's base name) and pin
coverage (pins pin at the requested version), every edge `A → B` of a
successfully assembled resolution graph points at a node whose pinned version,
when it has one, lies in the edge's range. -/
theorem C1_constraint_soundness (inp : FromStateInputs) (G : ResolutionGraph)
    (hpins : PinsVersioned inp) (hinv : SelectionInvariant inp)
    (hok : from_state inp = .ok G) :
    ∀ e ∈ G.petgraph.edges, ∃ d, G.petgraph.nodes[e.target]? = some d ∧
      ∀ w, d.version = some w → VersionRange.contains e.range w = true := by
  unfold from_state at hok
  cases hnp : nodePass inp inp.selection initState with
  | error e0 => simp only [hnp] at hok; exact absurd hok (by simp)
  | ok st =>
    simp only [hnp] at hok
    cases hep : edgePass inp st.inverse inp.selection st.petgraph with
    | error e0 => simp only [hep] at hok; exact absurd hok (by simp)
    | ok g =>
      simp only [hep, Except.ok.injEq] at hok
      subst hok
      intro e he
      have hIO : InverseOk inp st :=
        nodePass_inverseOk inp hpins inp.selection initState st (fun x hx => hx)
          (fun n i hm => absurd hm (by simp [initState])) hnp
      have hedges0 : st.petgraph.edges = [] :=
        nodePass_edges inp inp.selection initState st hnp
      obtain ⟨hnodes, hprov⟩ := edgePass_prov inp st.inverse inp.selection st.petgraph g
        (fun x hx => hx) hep
      rcases hprov e he with h0 | h0
      · rw [hedges0] at h0
        exact absurd h0 (by simp)
      · obtain ⟨p, v, hs, inc, hin, r, dr, sn, se, su, dn, de, du, hk, hp, hc, hlk, hrange⟩ := h0
        obtain ⟨d, hget, u, w, hsw, hv⟩ := hIO dn e.target (lookupA_mem _ _ _ hlk)
        refine ⟨d, by rw [hnodes]; exact hget, ?_⟩
        intro w' hw'
        have hcont : VersionRange.contains dr w = true :=
          hinv p v hs inc hin r (.package dn de du) dr (by rw [hp]; exact hk) hc
            dn de du rfl w none u hsw
        rw [hrange, hv w' hw']
        exact hcont

end Resolver

namespace Resolver

/-- Witness for C5: the concrete sample incompatibility passes the guards and
writes the edge `a → b`. -/
theorem C5_edge_pass_rules_witness :
    processIncompat sampleInverse (.package "a" none none) 1 ⟨[], []⟩ sampleInc =
      .ok (Graph.updateEdge ⟨[], []⟩ 0 1 sampleDepRange) :=
  (C5_edge_pass_rules sampleInverse (.package "a" none none) 1 ⟨[], []⟩ sampleInc).2.2.2.1
    "a" none none "b" none none sampleSelfRange sampleDepRange 0 1 rfl rfl (by decide) rfl rfl rfl

/-- Witness for C3: the non-empty hash preference for `a` is recorded
verbatim. -/
theorem C3_registry_hashes_witness :
    lookupA sampleHashState.hashes "a" = some [2, 1] :=
  (C3_registry_hashes sampleHashInputs initState "a" 1 sampleHashState rfl).1 [2, 1] rfl (by decide)

/-- Witness for C4: a declared extra of `a` is recorded without adding a node
or aborting. -/
theorem C4_missing_extra_diagnostic_witness :
    ∃ st', processNode sampleExtraInputs initState (.package "a" (some "cli") none) 1 = .ok st' ∧
      st'.petgraph = initState.petgraph ∧ st'.inverse = initState.inverse ∧
      st'.hashes = initState.hashes ∧
      ("cli" ∈ (⟨"a", ["cli"], []⟩ : Metadata).provides_extras →
        st'.extras = pushExtra initState.extras "a" "cli" ∧
        st'.diagnostics = initState.diagnostics) ∧
      ("cli" ∉ (⟨"a", ["cli"], []⟩ : Metadata).provides_extras →
        st'.extras = initState.extras ∧
        ∃ d, st'.diagnostics = initState.diagnostics ++ [.missingExtra d "cli"]) :=
  C4_missing_extra_diagnostic sampleExtraInputs initState "a" "cli" none 1 ⟨"a", ["cli"], []⟩
    rfl (fun _ _ hc => Option.noConfusion hc)

/-- Witness for C6: the sample projection succeeds and evaluates to true under
the original environment. -/
theorem C6_marker_tree_projection_witness :
    ∃ t, marker_tree sampleMarkerGraph sampleMarkerManifest sampleMarkerDists
        sampleMarkerEnv = .ok t ∧
      MarkerTree.eval sampleMarkerEnv t = true :=
  ⟨_, rfl, (C6_marker_tree_projection sampleMarkerGraph sampleMarkerManifest sampleMarkerDists
    sampleMarkerEnv _ rfl).1⟩

/-- Witness for C1: the sample inputs satisfy the Selection and pin
invariants, and the assembled graph's one edge is constraint-sound. -/
theorem C1_constraint_soundness_witness :
    PinsVersioned sampleInputs ∧ SelectionInvariant sampleInputs ∧
    ∀ e ∈ sampleGraph.petgraph.edges, ∃ d, sampleGraph.petgraph.nodes[e.target]? = some d ∧
      ∀ w, d.version = some w → VersionRange.contains e.range w = true := by
  have hpins : PinsVersioned sampleInputs := by
    intro n v d h w hw
    simp only [sampleInputs, Option.some.injEq] at h
    subst h
    simp only [Dist.version, Option.some.injEq] at hw
    exact hw.symm
  have hinv : SelectionInvariant sampleInputs := by
    intro A v hA inc hinc r dp dr hk hcv dn de du hdp qv qe qu hq
    simp only [sampleInputs, List.mem_cons, List.not_mem_nil, or_false,
      Prod.mk.injEq] at hA
    rcases hA with ⟨rfl, rfl⟩ | ⟨rfl, rfl⟩
    · have h0 : sampleInputs.incompatibilities (.package "a" none none) = [sampleInc] := rfl
      rw [h0] at hinc
      simp only [List.mem_singleton] at hinc
      subst hinc
      simp only [sampleInc, IncompatKind.fromDependencyOf.injEq] at hk
      obtain ⟨-, rfl, hdp2, rfl⟩ := hk
      rw [← hdp2] at hdp
      simp only [PubGrubPackage.package.injEq] at hdp
      obtain ⟨rfl, -, -⟩ := hdp
      simp only [sampleInputs, List.mem_cons, List.not_mem_nil, or_false,
        Prod.mk.injEq] at hq
      rcases hq with ⟨h1, h2⟩ | ⟨h1, h2⟩
      · simp only [PubGrubPackage.package.injEq] at h1
        exact absurd h1.1 (by decide)
      · subst h2
        decide
    · have h0 : sampleInputs.incompatibilities (.package "b" none none) = [] := rfl
      rw [h0] at hinc
      exact absurd hinc (by simp)
  exact ⟨hpins, hinv, C1_constraint_soundness sampleInputs sampleGraph hpins hinv rfl⟩

end Resolver

namespace Unnamed

/-- C8: an unnamed requirement that neither filename recognizer matches and
whose scheme is not one of file, http, https, git+ssh, git+https fails with
the unsupported-scheme error; and on every source of the fallback path —
directory, path, direct and git alike — a metadata-build failure propagates
unchanged to the caller (for a directory source the fallback is reached once
its static-metadata recognizers have failed, which is when the source builds
at all). -/
theorem C8_unsupported_scheme_and_build_errors (env : NameEnv) (req : UnnamedRequirement) :
    (hasWhlExtension req.url = false →
      req.url.filename.toOption.bind (fun f => env.sdist_parse f) = none →
      Scheme.parse req.url.scheme = none →
      resolve_requirement env req = .error (.unsupportedScheme req.url)) ∧
    (∀ src msg, hasWhlExtension req.url = false →
      req.url.filename.toOption.bind (fun f => env.sdist_parse f) = none →
      classifiedSource env req.url = some src →
      (∀ p, src = .directory req.url p →
        env.pkg_info_name p = none ∧ (env.pyproject p).bind pyprojectNameOf = none ∧
          env.setup_cfg_name p = none) →
      (∀ archive, env.index_get src.url ≠ some (.found archive)) →
      env.build_wheel_metadata (.url src) (env.get_url src.url) = .error msg →
      resolve_requirement env req = .error (.buildFailure msg)) := by
  constructor
  · intro h1 h2 h3
    simp only [resolve_requirement, h1, Bool.false_eq_true, if_false, h2, sourceOrName, h3]
  · intro src msg h1 h2 hcs hdir hidx hbuild
    rw [resolve_requirement_reaches_fallback env req src h1 h2 hcs hdir]
    unfold fetchFallback
    cases hr : env.index_get src.url with
    | none => simp only [hbuild]
    | some resp =>
      cases resp with
      | found archive => exact absurd hr (hidx archive)
      | miss => simp only [hbuild]

/-- Witness for C8: a concrete `ftp` URL fails with the unsupported-scheme
error, and a build failure over a concrete local project directory (a
file-scheme fallback source) propagates unchanged. -/
theorem C8_unsupported_scheme_and_build_errors_witness :
    resolve_requirement sampleEnv sampleFtpReq = .error (.unsupportedScheme sampleFtpReq.url) ∧
    resolve_requirement sampleEnv sampleDirReq = .error (.buildFailure "build failed") :=
  ⟨(C8_unsupported_scheme_and_build_errors sampleEnv sampleFtpReq).1 (by decide) rfl (by decide),
   (C8_unsupported_scheme_and_build_errors sampleEnv sampleDirReq).2
     (.directory sampleDirReq.url "/proj") "build failed" (by decide) rfl rfl
     (fun p hp => ⟨rfl, rfl, rfl⟩) (fun archive hc => Option.noConfusion hc) rfl⟩

end Unnamed
